import Mathlib

/-!
# Verification of the 1brc aggregation core (src/main.rs)

Shallow embedding of the Rust program in `src/main.rs`.  Bytes of the input
file are modelled as `List Nat` (each element a byte value `0..255` in the
inputs of interest).  Rust `f64` temperatures are modelled as exact rationals
(`Rat`); `f64` rounding is outside the model, so floating-point "tolerance"
statements become exact equalities here.  Rust panics (`expect`, out-of-range
slicing, out-of-bounds indexing) are modelled as `Except.error` run-level
failures.  `HashMap` is modelled as an association list whose lookup/update
semantics match `entry`/`and_modify`/`or_insert`; the per-key statements
proved below are insensitive to iteration order.
-/

namespace OneBrc

attribute [local semireducible] Rat.mul Rat.add Rat.sub Rat.inv Rat.ofScientific

/-- `struct StationData` from `src/main.rs` (lines 12-17); `f64` fields are
modelled as `Rat`, the `u32` counter `n` as `Nat` (inputs needing more than
`2^32` records of one key to overflow the counter are outside the model). -/
structure StationData where
  min_temp : Rat
  max_temp : Rat
  sum_temp : Rat
  n : Nat
deriving DecidableEq, Repr

/-- A `HashMap<&str, StationData>` / `HashMap<String, StationData>`, modelled
as an association list from key bytes to statistics. -/
abbrev AggMap : Type := List (List Nat × StationData)

/-- The distinct run-level failures (Rust panics) the program can hit. -/
inductive RunError where
  /-- `&data[a..b]` with `a > b` or `b > len` panics. -/
  | panicSliceRange
  /-- `std::str::from_utf8(..).expect("Invalid UTF-8 sequence")` panics. -/
  | panicUtf8
  /-- `temp.parse().expect(..)` panics on a malformed number. -/
  | panicParse
  /-- `data[len - 1]` on an empty slice panics. -/
  | panicIndex
deriving DecidableEq, Repr

/-- Decidable equality of run results, for evaluating the model on concrete
inputs. -/
instance {ε α : Type} [DecidableEq ε] [DecidableEq α] :
    DecidableEq (Except ε α) := fun a b =>
  match a, b with
  | .error e, .error e' =>
    if h : e = e' then isTrue (by rw [h])
    else isFalse (fun hc => h (Except.error.inj hc))
  | .error _, .ok _ => isFalse (fun hc => Except.noConfusion hc)
  | .ok _, .error _ => isFalse (fun hc => Except.noConfusion hc)
  | .ok v, .ok v' =>
    if h : v = v' then isTrue (by rw [h])
    else isFalse (fun hc => h (Except.ok.inj hc))

/-- Lookup in the association-list model of `HashMap`. -/
def lookupStation (m : AggMap) (k : List Nat) : Option StationData :=
  match m with
  | [] => none
  | (k', s) :: rest => if k' = k then some s else lookupStation rest k

/-- `m.entry(k).and_modify(f).or_insert(dflt)`: modify the entry of `k` in
place if present, otherwise append a fresh entry. -/
def entryUpdate (m : AggMap) (k : List Nat) (f : StationData → StationData)
    (dflt : StationData) : AggMap :=
  match m with
  | [] => [(k, dflt)]
  | (k', s) :: rest =>
    if k' = k then (k', f s) :: rest else (k', s) :: entryUpdate rest k f dflt

/-! ## Number parsing (`temp.parse::<f64>()`)

Rust's `f64: FromStr` grammar for finite numbers:
`[sign] (digits [. digits*] | . digits+) [(e|E) [sign] digits+]`.
The non-finite literals `inf`/`infinity`/`nan` have no rational counterpart
and are outside the model. -/

def isDigit (b : Nat) : Bool := 48 ≤ b && b ≤ 57

/-- Decimal value of a digit string. -/
def digitsVal (l : List Nat) : Nat := l.foldl (fun a b => a * 10 + (b - 48)) 0

/-- Strip an optional leading `+`/`-`, returning the sign and the rest. -/
def parseSign (s : List Nat) : Int × List Nat :=
  match s with
  | c :: r => if c = 43 then (1, r) else if c = 45 then (-1, r) else (1, s)
  | [] => (1, [])

/-- Parse the optional exponent suffix and apply it to the mantissa. -/
def parseExpPart (mant : Rat) : List Nat → Option Rat
  | [] => some mant
  | b :: r =>
    if b = 101 ∨ b = 69 then
      let p := parseSign r
      let ed := p.2.takeWhile isDigit
      let r2 := p.2.dropWhile isDigit
      if ed = [] ∨ r2 ≠ [] then none
      else some (mant * (10 : Rat) ^ (p.1 * (digitsVal ed : Int)))
    else none

/-- `s.parse::<f64>()`, in exact rational arithmetic. -/
def parseF64 (s : List Nat) : Option Rat :=
  let p := parseSign s
  let ip := p.2.takeWhile isDigit
  let s2 := p.2.dropWhile isDigit
  match s2 with
  | 46 :: r =>
    let fp := r.takeWhile isDigit
    let s3 := r.dropWhile isDigit
    if ip = [] ∧ fp = [] then none
    else
      parseExpPart
        ((p.1 : Rat) *
          (((digitsVal ip : Rat) * 10 ^ fp.length + (digitsVal fp : Rat)) /
            10 ^ fp.length)) s3
  | _ =>
    if ip = [] then none
    else parseExpPart ((p.1 : Rat) * (digitsVal ip : Rat)) s2

/-! ## UTF-8 validation (`std::str::from_utf8`) -/

/-- A UTF-8 continuation byte `0x80..=0xBF`. -/
def isCont (b : Nat) : Bool := 128 ≤ b && b ≤ 191

/-- Consume one continuation byte in `0x80..=0xBF`. -/
def cont1 : List Nat → Option (List Nat)
  | c1 :: r => if isCont c1 then some r else none
  | [] => none

/-- Consume a byte in `lo..=hi` followed by one continuation byte. -/
def cont2 (lo hi : Nat) : List Nat → Option (List Nat)
  | c1 :: c2 :: r => if lo ≤ c1 ∧ c1 ≤ hi ∧ isCont c2 then some r else none
  | _ => none

/-- Consume a byte in `lo..=hi` followed by two continuation bytes. -/
def cont3 (lo hi : Nat) : List Nat → Option (List Nat)
  | c1 :: c2 :: c3 :: r =>
    if lo ≤ c1 ∧ c1 ≤ hi ∧ isCont c2 ∧ isCont c3 then some r else none
  | _ => none

/-- Consume one UTF-8 encoded code point: given the leading byte `b` and the
following bytes, return the bytes after the code point, or `none` if `b` and
its continuation bytes are not a well-formed sequence (RFC 3629: overlong
encodings, surrogates and code points above `U+10FFFF` rejected, exactly as
`str::from_utf8`). -/
def utf8Step (b : Nat) (rest : List Nat) : Option (List Nat) :=
  if b ≤ 127 then some rest
  else if 194 ≤ b ∧ b ≤ 223 then cont1 rest
  else if b = 224 then cont2 160 191 rest
  else if 225 ≤ b ∧ b ≤ 236 then cont2 128 191 rest
  else if b = 237 then cont2 128 159 rest
  else if 238 ≤ b ∧ b ≤ 239 then cont2 128 191 rest
  else if b = 240 then cont3 144 191 rest
  else if 241 ≤ b ∧ b ≤ 243 then cont3 128 191 rest
  else if b = 244 then cont3 128 143 rest
  else none

/-- Fuel-driven iteration of `utf8Step` (the fuel is an upper bound on the
number of code points, supplied as the byte length by the wrapper). -/
def validUtf8Go : Nat → List Nat → Bool
  | _, [] => true
  | 0, _ :: _ => false
  | fuel + 1, b :: rest =>
    match utf8Step b rest with
    | some r => validUtf8Go fuel r
    | none => false

/-- Standard UTF-8 well-formedness, as `str::from_utf8` checks it: the byte
list is a sequence of well-formed code point encodings. -/
def validUtf8 (l : List Nat) : Bool := validUtf8Go l.length l

/-! ## The Chunk Splitter (`slice`, lines 99-116)

`slice` returns borrowed subslices `&data[a..b]`; the model returns the
half-open index ranges `(a, b)` instead, together with `sub` to read the
bytes of a range back off (`&data[a..b]` is determined by `data` and the
range, so nothing is lost). -/

/-- The bytes `data[a..b]` of an in-range subslice. -/
def sub (data : List Nat) (a b : Nat) : List Nat := (data.drop a).take (b - a)

/-- Iteration core of the inner scan of `slice`, structurally recursive on a
fuel argument so that the kernel can evaluate it; the wrapper below supplies
the exact fuel `data.length - e` the loop needs. -/
def findSliceEndGo (data : List Nat) : Nat → Nat → Nat
  | 0, e => e
  | fuel + 1, e =>
    if e < data.length then
      if data.getD e 0 = 10 then e else findSliceEndGo data fuel (e + 1)
    else e

/-- The inner scan `while slice_end < len && data[slice_end] != b'\n'`:
first position `≥ e` holding a newline byte, or the end of the data. -/
def findSliceEnd (data : List Nat) (e : Nat) : Nat :=
  findSliceEndGo data (data.length - e) e

/-- The defining recurrence of the inner scan loop. -/
theorem findSliceEnd_eq (data : List Nat) (e : Nat) :
    findSliceEnd data e =
      if e < data.length then
        if data.getD e 0 = 10 then e else findSliceEnd data (e + 1)
      else e := by
  by_cases h : e < data.length
  · have hf : data.length - e = (data.length - (e + 1)) + 1 := by omega
    rw [findSliceEnd, hf, findSliceEndGo, if_pos h, if_pos h]
    rfl
  · have hf : data.length - e = 0 := by omega
    rw [findSliceEnd, hf, findSliceEndGo, if_neg h]

theorem le_findSliceEnd (data : List Nat) (e : Nat) : e ≤ findSliceEnd data e := by
  suffices H : ∀ fuel e, e ≤ findSliceEndGo data fuel e from H _ e
  intro fuel
  induction fuel with
  | zero => intro e; exact le_refl _
  | succ f ih =>
    intro e
    rw [findSliceEndGo]
    by_cases h : e < data.length
    · rw [if_pos h]
      by_cases hb : data.getD e 0 = 10
      · rw [if_pos hb]
      · rw [if_neg hb]
        have := ih (e + 1)
        omega
    · rw [if_neg h]

/-- Iteration core of the `while slice_start < len` loop of `slice`,
structurally recursive on fuel. -/
def sliceLoopGo (S : Nat) (data : List Nat) : Nat → Nat → List (Nat × Nat)
  | 0, _ => []
  | fuel + 1, start =>
    if start < data.length then
      if findSliceEnd data (start + S) < data.length then
        (start, findSliceEnd data (start + S)) ::
          sliceLoopGo S data fuel (findSliceEnd data (start + S) + 1)
      else
        (start, data.length) ::
          sliceLoopGo S data fuel (findSliceEnd data (start + S) + 1)
    else []

/-- The outer `while slice_start < len` loop of `slice`, made generic in the
target chunk size `S` (a tunable constant in the source). -/
def sliceLoop (S : Nat) (data : List Nat) (start : Nat) : List (Nat × Nat) :=
  sliceLoopGo S data (data.length - start) start

theorem sliceLoopGo_congr (S : Nat) (data : List Nat) :
    ∀ fuel fuel' start, data.length - start ≤ fuel →
      data.length - start ≤ fuel' →
      sliceLoopGo S data fuel start = sliceLoopGo S data fuel' start := by
  intro fuel
  induction fuel with
  | zero =>
    intro fuel' start h h'
    cases fuel' with
    | zero => rfl
    | succ f => rw [sliceLoopGo, sliceLoopGo, if_neg (by omega)]
  | succ f ih =>
    intro fuel' start h h'
    cases fuel' with
    | zero => rw [sliceLoopGo, sliceLoopGo, if_neg (by omega)]
    | succ f' =>
      rw [sliceLoopGo, sliceLoopGo]
      by_cases hs : start < data.length
      · rw [if_pos hs, if_pos hs]
        have hfe := le_findSliceEnd data (start + S)
        by_cases he : findSliceEnd data (start + S) < data.length
        · rw [if_pos he, if_pos he]
          rw [ih f' _ (by omega) (by omega)]
        · rw [if_neg he, if_neg he]
          rw [ih f' _ (by omega) (by omega)]
      · rw [if_neg hs, if_neg hs]

/-- The defining recurrence of the chunk-splitting loop. -/
theorem sliceLoop_eq (S : Nat) (data : List Nat) (start : Nat) :
    sliceLoop S data start =
      if start < data.length then
        if findSliceEnd data (start + S) < data.length then
          (start, findSliceEnd data (start + S)) ::
            sliceLoop S data (findSliceEnd data (start + S) + 1)
        else
          (start, data.length) ::
            sliceLoop S data (findSliceEnd data (start + S) + 1)
      else []
  := by
  by_cases hs : start < data.length
  · have hf : data.length - start = (data.length - start - 1) + 1 := by omega
    have hfe := le_findSliceEnd data (start + S)
    rw [sliceLoop, hf, sliceLoopGo, if_pos hs]
    by_cases he : findSliceEnd data (start + S) < data.length
    · rw [if_pos he, if_pos hs, if_pos he]
      congr 1
      rw [sliceLoop]
      exact sliceLoopGo_congr S data (data.length - start - 1)
        (data.length - (findSliceEnd data (start + S) + 1))
        (findSliceEnd data (start + S) + 1) (by omega) (by omega)
    · rw [if_neg he, if_pos hs, if_neg he]
      congr 1
      rw [sliceLoop]
      exact sliceLoopGo_congr S data (data.length - start - 1)
        (data.length - (findSliceEnd data (start + S) + 1))
        (findSliceEnd data (start + S) + 1) (by omega) (by omega)
  · have hf : data.length - start = 0 := by omega
    rw [sliceLoop, hf, sliceLoopGo, if_neg hs]

/-- `const SLICE_SIZE: usize = 2 << 15;` -/
def SLICE_SIZE : Nat := 2 <<< 15

/-- `fn slice(data: &[u8]) -> Vec<&[u8]>` (ranges of the returned slices). -/
def slice (data : List Nat) : List (Nat × Nat) := sliceLoop SLICE_SIZE data 0

/-! ## The Chunk Aggregator (`read_stations_data_slice` / `process_record`,
lines 118-164) -/

/-- `fn process_record` (lines 143-164).  Mirrors the Rust statement order:
slice and decode the station bytes, slice and decode the temperature bytes,
parse the temperature, then `entry`/`and_modify`/`or_insert`.  Rust range
slicing `&data[a..b]` panics when `a > b` or `b > len`. -/
def process_record (data : List Nat) (m : AggMap)
    (station_start station_end temp_start temp_end : Nat) :
    Except RunError AggMap :=
  if station_start ≤ station_end ∧ station_end ≤ data.length then
    if validUtf8 (sub data station_start station_end) then
      if temp_start ≤ temp_end ∧ temp_end ≤ data.length then
        if validUtf8 (sub data temp_start temp_end) then
          match parseF64 (sub data temp_start temp_end) with
          | some temp =>
            .ok (entryUpdate m (sub data station_start station_end)
              (fun e =>
                { max_temp := if temp > e.max_temp then temp else e.max_temp
                  min_temp := if temp < e.min_temp then temp else e.min_temp
                  sum_temp := e.sum_temp + temp
                  n := e.n + 1 })
              { min_temp := temp, max_temp := temp, sum_temp := temp, n := 1 })
          | none => .error .panicParse
        else .error .panicUtf8
      else .error .panicSliceRange
    else .error .panicUtf8
  else .error .panicSliceRange

/-- The `while i < len` scan of `read_stations_data_slice` (lines 126-135):
newline bytes trigger `process_record`, delimiter bytes update the
`station_end`/`temp_start` offsets (which are *not* reset between records).
Returns the final map together with the final scan offsets, which the
trailing-record handling needs. -/
def scanLoopGo (data : List Nat) :
    Nat → Nat → Nat → Nat → Nat → AggMap →
    Except RunError (AggMap × Nat × Nat × Nat)
  | 0, _, station_start, station_end, temp_start, m =>
    .ok (m, station_start, station_end, temp_start)
  | fuel + 1, i, station_start, station_end, temp_start, m =>
    if i < data.length then
      if data.getD i 0 = 10 then
        match process_record data m station_start station_end temp_start i with
        | .error e => .error e
        | .ok m' => scanLoopGo data fuel (i + 1) (i + 1) station_end temp_start m'
      else if data.getD i 0 = 59 then
        scanLoopGo data fuel (i + 1) station_start i (i + 1) m
      else
        scanLoopGo data fuel (i + 1) station_start station_end temp_start m
    else .ok (m, station_start, station_end, temp_start)

def scanLoop (data : List Nat) (i station_start station_end temp_start : Nat)
    (m : AggMap) : Except RunError (AggMap × Nat × Nat × Nat) :=
  scanLoopGo data (data.length - i) i station_start station_end temp_start m

/-- The defining recurrence of the chunk-scanning loop. -/
theorem scanLoop_eq (data : List Nat)
    (i station_start station_end temp_start : Nat) (m : AggMap) :
    scanLoop data i station_start station_end temp_start m =
      if i < data.length then
        if data.getD i 0 = 10 then
          match process_record data m station_start station_end temp_start i with
          | .error e => .error e
          | .ok m' => scanLoop data (i + 1) (i + 1) station_end temp_start m'
        else if data.getD i 0 = 59 then
          scanLoop data (i + 1) station_start i (i + 1) m
        else
          scanLoop data (i + 1) station_start station_end temp_start m
      else .ok (m, station_start, station_end, temp_start) := by
  by_cases h : i < data.length
  · have hf : data.length - i = (data.length - (i + 1)) + 1 := by omega
    rw [scanLoop, hf, scanLoopGo, if_pos h, if_pos h]
    rfl
  · have hf : data.length - i = 0 := by omega
    rw [scanLoop, hf, scanLoopGo, if_neg h]

/-- `fn read_stations_data_slice` (lines 118-141): scan the chunk, then
process the trailing record if the chunk does not end with a newline.
The unguarded `data[len - 1]` panics on an empty chunk (`len - 1` wraps
around in `usize`, so the index is out of bounds exactly when `len = 0`). -/
def read_stations_data_slice (data : List Nat) : Except RunError AggMap :=
  match scanLoop data 0 0 0 0 [] with
  | .error e => .error e
  | .ok (m, station_start, station_end, temp_start) =>
    if data.length - 1 < data.length then
      if data.getD (data.length - 1) 0 = 10 then .ok m
      else process_record data m station_start station_end temp_start data.length
    else .error .panicIndex

/-! ## Pipeline Driver and Merge Reducer (`parallel_memory_mapped`,
lines 69-97) -/

/-- The reduce closure of `parallel_memory_mapped` (lines 79-90): fold every
entry of the second mapping into the first via `entry`/`and_modify`/
`or_insert`. -/
def mergeMaps (m1 m2 : AggMap) : AggMap :=
  m2.foldl
    (fun acc kv =>
      entryUpdate acc kv.1
        (fun e =>
          { max_temp := max kv.2.max_temp e.max_temp
            min_temp := min kv.2.min_temp e.min_temp
            sum_temp := e.sum_temp + kv.2.sum_temp
            n := e.n + kv.2.n })
        kv.2)
    m1

/-- Apply a fallible worker to every element, collecting the results in
order; the first failure fails the whole run (a panicking rayon worker
aborts the run). -/
def mapExcept (f : Nat × Nat → Except RunError AggMap) :
    List (Nat × Nat) → Except RunError (List AggMap)
  | [] => .ok []
  | r :: rs =>
    match f r with
    | .error e => .error e
    | .ok m =>
      match mapExcept f rs with
      | .error e => .error e
      | .ok ms => .ok (m :: ms)

/-- The aggregation pipeline of `parallel_memory_mapped` with the chunk size
as a parameter: split into chunks, aggregate each chunk with
`read_stations_data_slice`, reduce the per-chunk mappings (rayon's `reduce`
combines the chunk results in index order; the model fixes the left-fold
tree, which the associativity theorem below justifies).  A panic in any
worker fails the whole run. -/
def parallelRunWith (S : Nat) (data : List Nat) : Except RunError AggMap :=
  match mapExcept (fun r => read_stations_data_slice (sub data r.1 r.2))
      (sliceLoop S data 0) with
  | .error e => .error e
  | .ok ms => .ok (ms.foldl mergeMaps [])

/-- `fn parallel_memory_mapped` (lines 69-97), aggregation part: the mapping
it builds from the file bytes (timing and printing are outside the model). -/
def parallel_memory_mapped (data : List Nat) : Except RunError AggMap :=
  parallelRunWith SLICE_SIZE data

/-! ## The naive baseline (`read_stations_data`, lines 43-67)

`BufReader::lines()` splits the byte stream on `\n`, strips the terminator
and a preceding `\r`, and yields `Err` (skipped by the `if let Ok`) for lines
that are not valid UTF-8. -/

/-- Split a byte list on a separator byte (every occurrence, like
`str::split`); `n` separators yield `n + 1` pieces. -/
def splitOnByte (b : Nat) : List Nat → List (List Nat)
  | [] => [[]]
  | c :: rest =>
    if c = b then [] :: splitOnByte b rest
    else
      match splitOnByte b rest with
      | [] => [[c]]
      | s :: ss => (c :: s) :: ss

/-- Strip one trailing carriage-return byte, as `BufRead::lines` does after
removing the newline. -/
def stripCR (l : List Nat) : List Nat :=
  match l.getLast? with
  | some 13 => l.dropLast
  | _ => l

/-- The lines yielded by `BufReader::lines()` over the file bytes: split on
newline bytes, drop the empty piece a trailing newline leaves, strip `\r`. -/
def bufLines (data : List Nat) : List (List Nat) :=
  if data = [] then []
  else
    let segs := splitOnByte 10 data
    (if segs.getLast? = some [] then segs.dropLast else segs).map stripCR

/-- `fn read_stations_data` (lines 43-67): per line, split on `;`; lines with
other than exactly two pieces are silently skipped, as are lines that are not
valid UTF-8 (`if let Ok(l)`); a malformed temperature panics (`expect`). -/
def read_stations_data (data : List Nat) : Except RunError AggMap :=
  (bufLines data).foldlM
    (fun m l =>
      if validUtf8 l then
        match splitOnByte 59 l with
        | [station, tempStr] =>
          match parseF64 tempStr with
          | some temp =>
            .ok (entryUpdate m station
              (fun e =>
                { max_temp := max temp e.max_temp
                  min_temp := min temp e.min_temp
                  sum_temp := e.sum_temp + temp
                  n := e.n + 1 })
              { min_temp := temp, max_temp := temp, sum_temp := temp, n := 1 })
          | none => .error .panicParse
        | _ => .ok m
      else .ok m)
    []

/-! ## Reference semantics

Line-level reference functions used to state the equivalence and refinement
claims: folding the records of a well-formed input one by one into a map. -/

/-- Fold one observed value into the statistics of its key (the fold step of
§4.3: new keys start at `{v, v, v, 1}`, existing ones update min/max/sum/n). -/
def combineVal (e : StationData) (q : Rat) : StationData :=
  { min_temp := min q e.min_temp
    max_temp := max q e.max_temp
    sum_temp := e.sum_temp + q
    n := e.n + 1 }

/-- Statistics of a single observation. -/
def singleStats (q : Rat) : StationData :=
  { min_temp := q, max_temp := q, sum_temp := q, n := 1 }

/-- Fold one value into an optional statistics record. -/
def addVal (o : Option StationData) (q : Rat) : Option StationData :=
  some (match o with
    | none => singleStats q
    | some e => combineVal e q)

/-- Combined statistics of a list of values (`none` when there are none). -/
def statsOfVals (vs : List Rat) : Option StationData := vs.foldl addVal none

/-- Combine two optional statistics records as the Merge Reducer does. -/
def combineOpt (a b : Option StationData) : Option StationData :=
  match a, b with
  | none, b => b
  | a, none => a
  | some x, some y =>
    some { min_temp := min x.min_temp y.min_temp
           max_temp := max x.max_temp y.max_temp
           sum_temp := x.sum_temp + y.sum_temp
           n := x.n + y.n }

/-- Key of a record line: the bytes before the first delimiter. -/
def lineKey (l : List Nat) : List Nat := l.takeWhile (fun b => b ≠ 59)

/-- Value bytes of a record line: the bytes after the first delimiter. -/
def lineVal (l : List Nat) : List Nat := (l.dropWhile (fun b => b ≠ 59)).tail

/-- Fold one record line into a map (no-op on an unparseable value; only
applied to well-formed lines in the proofs). -/
def insertLine (m : AggMap) (l : List Nat) : AggMap :=
  match parseF64 (lineVal l) with
  | some q => entryUpdate m (lineKey l) (fun e => combineVal e q) (singleStats q)
  | none => m

/-- The parsed values of the records of the given lines that carry key `k`. -/
def valsOf (ls : List (List Nat)) (k : List Nat) : List Rat :=
  ls.filterMap (fun l => if lineKey l = k then parseF64 (lineVal l) else none)

/-- Rebuild file bytes from a list of lines; `t` tells whether the final line
carries a trailing newline. -/
def joinLines : List (List Nat) → Bool → List Nat
  | [], _ => []
  | [l], t => l ++ (if t then [10] else [])
  | l :: l' :: rest, t => l ++ 10 :: joinLines (l' :: rest) t

/-- A well-formed record line: `key;value` with a delimiter-free,
newline-free, valid-UTF-8 key and a value that parses as a number. -/
def WFline (l : List Nat) : Prop :=
  ∃ k v q, l = k ++ 59 :: v ∧ (∀ b ∈ k, b ≠ 59 ∧ b ≠ 10) ∧
    validUtf8 k = true ∧ parseF64 v = some q

/-- A well-formed input: a join of well-formed record lines, with or without
a trailing newline. -/
def WFinput (data : List Nat) : Prop :=
  ∃ ls t, data = joinLines ls t ∧ ∀ l ∈ ls, WFline l

/-- The association list has no duplicate keys (the `HashMap` invariant). -/
def NodupKeys (m : AggMap) : Prop := (m.map Prod.fst).Nodup

/-- The per-entry statistics invariant of §3. -/
def StatsInvMap (m : AggMap) : Prop :=
  ∀ kv ∈ m, kv.2.min_temp ≤ kv.2.max_temp ∧ 1 ≤ kv.2.n

/-! ## Structure of the ranges produced by the Chunk Splitter -/

/-- The shape of the range list `sliceLoop` produces from `start = s`:
consecutive ranges, each non-empty and in bounds, every range except a final
one ending at `len` stopping just short of a newline byte, and the next range
starting right after that newline. -/
def ChainFrom (data : List Nat) : Nat → List (Nat × Nat) → Prop
  | s, [] => data.length ≤ s
  | s, (a, b) :: rest =>
    a = s ∧ s < data.length ∧ s < b ∧ b ≤ data.length ∧
      ((b = data.length ∧ rest = []) ∨
        (b < data.length ∧ data.getD b 0 = 10 ∧ ChainFrom data (b + 1) rest))

theorem findSliceEnd_newline (data : List Nat) (e : Nat)
    (h : findSliceEnd data e < data.length) :
    data.getD (findSliceEnd data e) 0 = 10 := by
  suffices H : ∀ fuel e, data.length - e ≤ fuel →
      findSliceEndGo data fuel e < data.length →
      data.getD (findSliceEndGo data fuel e) 0 = 10 from
    H _ e (le_refl _) h
  intro fuel
  induction fuel with
  | zero =>
    intro e hfe hlt
    rw [findSliceEndGo] at hlt
    omega
  | succ f ih =>
    intro e hfe hlt
    rw [findSliceEndGo] at hlt ⊢
    by_cases he : e < data.length
    · rw [if_pos he] at hlt ⊢
      by_cases hb : data.getD e 0 = 10
      · rwa [if_pos hb]
      · rw [if_neg hb] at hlt ⊢
        exact ih (e + 1) (by omega) hlt
    · rw [if_neg he] at hlt
      omega

theorem sliceLoop_chain (S : Nat) (hS : 1 ≤ S) (data : List Nat) :
    ∀ s, ChainFrom data s (sliceLoop S data s) := by
  have H : ∀ n s, data.length - s ≤ n → ChainFrom data s (sliceLoop S data s) := by
    intro n
    induction n with
    | zero =>
      intro s hs
      rw [sliceLoop_eq, if_neg (by omega)]
      show data.length ≤ s
      omega
    | succ n ih =>
      intro s hs
      by_cases hlt : s < data.length
      · have hfe := le_findSliceEnd data (s + S)
        rw [sliceLoop_eq, if_pos hlt]
        by_cases he : findSliceEnd data (s + S) < data.length
        · rw [if_pos he]
          refine ⟨rfl, hlt, by omega, by omega, Or.inr ⟨he, findSliceEnd_newline data _ he, ?_⟩⟩
          exact ih _ (by omega)
        · rw [if_neg he]
          refine ⟨rfl, hlt, by omega, le_refl _, Or.inl ⟨rfl, ?_⟩⟩
          rw [sliceLoop_eq, if_neg (by omega)]
      · rw [sliceLoop_eq, if_neg hlt]
        show data.length ≤ s
        omega
  intro s
  exact H (data.length - s) s (le_refl _)

theorem chain_mem_bounds {data : List Nat} :
    ∀ {s : Nat} {rs : List (Nat × Nat)}, ChainFrom data s rs →
      ∀ r ∈ rs, s ≤ r.1 ∧ r.1 < r.2 ∧ r.2 ≤ data.length := by
  intro s rs
  induction rs generalizing s with
  | nil => intro _ r hr; cases hr
  | cons hd tl ih =>
    obtain ⟨a, b⟩ := hd
    rintro ⟨rfl, hs, hab, hbl, hrest⟩ r hr
    rw [List.mem_cons] at hr
    rcases hr with rfl | hr
    · exact ⟨le_refl _, hab, hbl⟩
    · rcases hrest with ⟨_, rfl⟩ | ⟨_, _, hchain⟩
      · cases hr
      · have := ih hchain r hr
        exact ⟨by omega, this.2.1, this.2.2⟩

theorem chain_end_newline {data : List Nat} :
    ∀ {s : Nat} {rs : List (Nat × Nat)}, ChainFrom data s rs →
      ∀ r ∈ rs, r.2 = data.length ∨ data.getD r.2 0 = 10 := by
  intro s rs
  induction rs generalizing s with
  | nil => intro _ r hr; cases hr
  | cons hd tl ih =>
    obtain ⟨a, b⟩ := hd
    rintro ⟨rfl, hs, hab, hbl, hrest⟩ r hr
    rw [List.mem_cons] at hr
    rcases hr with rfl | hr
    · rcases hrest with ⟨hbe, _⟩ | ⟨_, hnl, _⟩
      · exact Or.inl hbe
      · exact Or.inr hnl
    · rcases hrest with ⟨_, rfl⟩ | ⟨_, _, hchain⟩
      · cases hr
      · exact ih hchain r hr

theorem chain_coverage {data : List Nat} :
    ∀ {s : Nat} {rs : List (Nat × Nat)}, ChainFrom data s rs →
      ∀ i, s ≤ i → i < data.length → data.getD i 0 ≠ 10 →
        ∃ r ∈ rs, r.1 ≤ i ∧ i < r.2 := by
  intro s rs
  induction rs generalizing s with
  | nil => intro hc i hsi hil _; exact absurd hc (by simp [ChainFrom]; omega)
  | cons hd tl ih =>
    obtain ⟨a, b⟩ := hd
    rintro ⟨rfl, hs, hab, hbl, hrest⟩ i hsi hil hnl
    by_cases hib : i < b
    · exact ⟨(a, b), List.mem_cons_self _ _, hsi, hib⟩
    · rcases hrest with ⟨hbe, _⟩ | ⟨hblt, hbnl, hchain⟩
      · omega
      · have hib' : b + 1 ≤ i := by
          rcases Nat.lt_or_ge i (b + 1) with h | h
          · exfalso; have : i = b := by omega
            rw [this] at hnl; exact hnl hbnl
          · exact h
        obtain ⟨r, hr, h1, h2⟩ := ih hchain i hib' hil hnl
        exact ⟨r, List.mem_cons_of_mem _ hr, h1, h2⟩

/-- The chunk ranges are strictly ordered and pairwise disjoint: each range
ends strictly before the next one starts. -/
theorem chain_pairwise {data : List Nat} :
    ∀ {s : Nat} {rs : List (Nat × Nat)}, ChainFrom data s rs →
      rs.Pairwise (fun r r' => r.2 < r'.1) := by
  intro s rs
  induction rs generalizing s with
  | nil => intro _; exact List.Pairwise.nil
  | cons hd tl ih =>
    obtain ⟨a, b⟩ := hd
    rintro ⟨rfl, hs, hab, hbl, hrest⟩
    rcases hrest with ⟨_, rfl⟩ | ⟨hblt, hbnl, hchain⟩
    · exact List.pairwise_singleton _ _
    · refine List.Pairwise.cons ?_ (ih hchain)
      intro r hr
      have := chain_mem_bounds hchain r hr
      omega

theorem SLICE_SIZE_eq : SLICE_SIZE = 65536 := rfl

/-- An input longer than one chunk: 65536 `a` bytes, a newline, one more
byte.  The newline at index 65536 falls on a chunk boundary and is excluded
from both neighbouring chunks. -/
def bigInput : List Nat := List.replicate 65536 97 ++ [10, 98]

theorem bigInput_length : bigInput.length = 65538 := by
  rw [bigInput, List.length_append, List.length_replicate]
  rfl

theorem bigInput_nl : bigInput.getD 65536 0 = 10 := by
  rw [bigInput,
    List.getD_append_right _ _ _ _ (by rw [List.length_replicate]),
    List.length_replicate]
  rfl

theorem slice_bigInput : slice bigInput = [(0, 65536), (65537, 65538)] := by
  have h1 : findSliceEnd bigInput 65536 = 65536 := by
    rw [findSliceEnd_eq, if_pos (by rw [bigInput_length]; omega), if_pos bigInput_nl]
  have h2 : findSliceEnd bigInput 131073 = 131073 := by
    rw [findSliceEnd_eq, if_neg (by rw [bigInput_length]; omega)]
  show sliceLoop SLICE_SIZE bigInput 0 = _
  rw [SLICE_SIZE_eq, sliceLoop_eq, if_pos (by rw [bigInput_length]; omega)]
  simp only [Nat.zero_add, h1, bigInput_length]
  rw [if_pos (by omega)]
  rw [sliceLoop_eq, if_pos (by rw [bigInput_length]; omega)]
  simp only [h2, bigInput_length]
  rw [if_neg (by omega)]
  rw [sliceLoop_eq, if_neg (by rw [bigInput_length]; omega)]

/-- A maximal newline-free span of the input (a record, terminator excluded)
is contained in a single chunk range. -/
theorem chain_span_in_one {data : List Nat} {s : Nat} {rs : List (Nat × Nat)}
    (hc : ChainFrom data s rs) (p q : Nat) (hsp : s ≤ p) (hpq : p < q)
    (hql : q ≤ data.length) (hnl : ∀ j, p ≤ j → j < q → data.getD j 0 ≠ 10) :
    ∃ r ∈ rs, r.1 ≤ p ∧ q ≤ r.2 := by
  obtain ⟨r, hr, h1, h2⟩ :=
    chain_coverage hc p hsp (by omega) (hnl p (le_refl _) hpq)
  refine ⟨r, hr, h1, ?_⟩
  by_contra hq
  have hr2 : r.2 < q := by omega
  have hr2p : p ≤ r.2 := by omega
  rcases chain_end_newline hc r hr with he | he
  · omega
  · exact hnl r.2 hr2p hr2 he

/-! ## Claim theorems: C2, C3, C10 (Chunk Splitter) -/

/-- C10: every chunk returned by the Chunk Splitter `slice` is a non-empty
byte span, so the unguarded access to the chunk's last byte
(`data[len - 1]`) in `read_stations_data_slice` is in bounds for every chunk
the parallel pipeline passes to it. -/
theorem c10_chunks_nonempty (data : List Nat) (r : Nat × Nat)
    (hr : r ∈ slice data) :
    r.1 < r.2 ∧ 0 < (sub data r.1 r.2).length ∧
      (sub data r.1 r.2).length - 1 < (sub data r.1 r.2).length := by
  have hc := sliceLoop_chain SLICE_SIZE (by decide) data 0
  have hb := chain_mem_bounds hc r hr
  have hlen : (sub data r.1 r.2).length = r.2 - r.1 := by
    rw [sub, List.length_take, List.length_drop]
    omega
  omega

theorem c10_chunks_nonempty_witness :
    ((0, 4) : Nat × Nat).1 < ((0, 4) : Nat × Nat).2 ∧
      0 < (sub [97, 59, 49, 10] 0 4).length ∧
      (sub [97, 59, 49, 10] 0 4).length - 1 < (sub [97, 59, 49, 10] 0 4).length :=
  c10_chunks_nonempty [97, 59, 49, 10] (0, 4) (by decide)

/-- C2 (amended): for every input, `slice` returns an ordered sequence of
pairwise-disjoint in-bounds ranges; every byte that is not a line terminator
is covered by exactly one range; each range ends at a line-terminator byte
or at the end of the input.  Contrary to the original claim, the
line-terminator byte at each internal chunk boundary (and a trailing
terminator falling on a boundary) belongs to *no* chunk: `slice` skips it
(`slice_start = slice_end + 1`). -/
theorem c2_slice_ranges_amended (data : List Nat) :
    (∀ r ∈ slice data, r.1 < r.2 ∧ r.2 ≤ data.length ∧
        (r.2 < data.length → data.getD r.2 0 = 10)) ∧
    (∀ i, i < data.length → data.getD i 0 ≠ 10 →
        ∃ r ∈ slice data, r.1 ≤ i ∧ i < r.2) ∧
    (slice data).Pairwise (fun r r' => r.2 < r'.1) := by
  have hc := sliceLoop_chain SLICE_SIZE (by decide) data 0
  refine ⟨?_, ?_, chain_pairwise hc⟩
  · intro r hr
    have hb := chain_mem_bounds hc r hr
    have he := chain_end_newline hc r hr
    refine ⟨hb.2.1, hb.2.2, ?_⟩
    intro hlt
    rcases he with he | he
    · omega
    · exact he
  · intro i hi hnl
    exact chain_coverage hc i (Nat.zero_le _) hi hnl

theorem c2_slice_ranges_amended_witness :
    ∃ r ∈ slice [97, 59, 49, 10], r.1 ≤ 0 ∧ 0 < r.2 :=
  (c2_slice_ranges_amended [97, 59, 49, 10]).2.1 0 (by decide) (by decide)

/-- C2 is false as stated: in `bigInput` (65536 letter bytes, a newline, one
more byte) the line-terminator byte at index 65536 lies at a chunk boundary
and belongs to no chunk, so the ranges do not cover every byte of `[0, L)`. -/
theorem c2_cover_counterexample :
    65536 < bigInput.length ∧
      ∀ r ∈ slice bigInput, ¬(r.1 ≤ 65536 ∧ 65536 < r.2) := by
  refine ⟨by rw [bigInput_length]; omega, ?_⟩
  rw [slice_bigInput]
  intro r hr
  rw [List.mem_cons, List.mem_singleton] at hr
  rcases hr with rfl | rfl
  · rintro ⟨h1, h2⟩
    simp at h2
  · rintro ⟨h1, h2⟩
    simp at h1

/-- C3: for every input byte sequence and every (positive) target chunk
size, chunk boundaries land only on record boundaries: a maximal
newline-free byte span (the bytes of one `key;value` record, terminator
excluded) is contained entirely within a single chunk.  `slice` is the
instance `S = SLICE_SIZE`. -/
theorem c3_no_record_split (S : Nat) (hS : 1 ≤ S) (data : List Nat)
    (p q : Nat) (hpq : p < q) (hql : q ≤ data.length)
    (hnl : ∀ j, p ≤ j → j < q → data.getD j 0 ≠ 10) :
    ∃ r ∈ sliceLoop S data 0, r.1 ≤ p ∧ q ≤ r.2 :=
  chain_span_in_one (sliceLoop_chain S hS data 0) p q (Nat.zero_le _) hpq hql hnl

theorem c3_no_record_split_witness :
    ∃ r ∈ sliceLoop 2 [97, 59, 49, 10] 0, r.1 ≤ 0 ∧ 3 ≤ r.2 :=
  c3_no_record_split 2 (by decide) [97, 59, 49, 10] 0 3 (by decide) (by decide)
    (by intro j h1 h2; interval_cases j <;> decide)

/-! ## Association-list map lemmas -/

theorem lookup_entryUpdate (m : AggMap) (k k' : List Nat)
    (f : StationData → StationData) (d : StationData) :
    lookupStation (entryUpdate m k f d) k' =
      if k = k' then
        (match lookupStation m k with
          | some s => some (f s)
          | none => some d)
      else lookupStation m k' := by
  induction m with
  | nil =>
    by_cases h : k = k'
    · subst h
      simp [entryUpdate, lookupStation]
    · simp [entryUpdate, lookupStation, h]
  | cons hd rest ih =>
    obtain ⟨a, s⟩ := hd
    by_cases hak : a = k
    · subst hak
      by_cases hk' : a = k'
      · subst hk'
        simp [entryUpdate, lookupStation]
      · simp [entryUpdate, lookupStation, hk']
    · by_cases hk' : a = k'
      · subst hk'
        have hkk' : k ≠ a := fun h => hak h.symm
        simp [entryUpdate, lookupStation, hak, hkk']
      · simp [entryUpdate, lookupStation, hak, hk', ih]

theorem lookup_eq_none_of_not_mem_keys {m : AggMap} {k : List Nat}
    (h : k ∉ m.map Prod.fst) : lookupStation m k = none := by
  induction m with
  | nil => rfl
  | cons hd rest ih =>
    obtain ⟨a, s⟩ := hd
    simp only [List.map_cons, List.mem_cons] at h
    push_neg at h
    have : a ≠ k := fun he => h.1 he.symm
    simp [lookupStation, this, ih h.2]

theorem mem_keys_entryUpdate {m : AggMap} {k x : List Nat}
    {f : StationData → StationData} {d : StationData} :
    x ∈ (entryUpdate m k f d).map Prod.fst ↔ x ∈ m.map Prod.fst ∨ x = k := by
  induction m with
  | nil => simp [entryUpdate]
  | cons hd rest ih =>
    obtain ⟨a, s⟩ := hd
    by_cases hak : a = k
    · subst hak
      simp [entryUpdate]
      tauto
    · simp [entryUpdate, hak, ih]
      tauto

theorem nodupKeys_entryUpdate {m : AggMap} {k : List Nat}
    {f : StationData → StationData} {d : StationData} (h : NodupKeys m) :
    NodupKeys (entryUpdate m k f d) := by
  induction m with
  | nil => simp [entryUpdate, NodupKeys]
  | cons hd rest ih =>
    obtain ⟨a, s⟩ := hd
    rw [NodupKeys, List.map_cons, List.nodup_cons] at h
    by_cases hak : a = k
    · subst hak
      have he : entryUpdate ((a, s) :: rest) a f d = (a, f s) :: rest := by
        simp [entryUpdate]
      rw [NodupKeys, he, List.map_cons, List.nodup_cons]
      exact h
    · rw [NodupKeys]
      simp only [entryUpdate, if_neg hak, List.map_cons, List.nodup_cons]
      constructor
      · intro hmem
        rcases mem_keys_entryUpdate.mp hmem with hmem | rfl
        · exact h.1 hmem
        · exact hak rfl
      · exact ih h.2

theorem nodupKeys_mergeMaps {m2 : AggMap} :
    ∀ {m1 : AggMap}, NodupKeys m1 → NodupKeys (mergeMaps m1 m2) := by
  induction m2 with
  | nil => intro m1 h; exact h
  | cons hd rest ih =>
    intro m1 h
    have step : mergeMaps m1 (hd :: rest) =
        mergeMaps (entryUpdate m1 hd.1
          (fun e =>
            { max_temp := max hd.2.max_temp e.max_temp
              min_temp := min hd.2.min_temp e.min_temp
              sum_temp := e.sum_temp + hd.2.sum_temp
              n := e.n + hd.2.n }) hd.2) rest := rfl
    rw [step]
    exact ih (nodupKeys_entryUpdate h)

theorem combineOpt_none_right (a : Option StationData) : combineOpt a none = a := by
  cases a <;> rfl

theorem combineOpt_none_left (a : Option StationData) : combineOpt none a = a := by
  cases a <;> rfl

theorem combineOpt_assoc (a b c : Option StationData) :
    combineOpt (combineOpt a b) c = combineOpt a (combineOpt b c) := by
  cases a <;> cases b <;> cases c <;>
    simp [combineOpt, min_assoc, max_assoc, add_assoc, Nat.add_assoc]

/-- Per-key semantics of the Merge Reducer: merging then looking up equals
combining the two lookups (the second map must satisfy the `HashMap`
distinct-keys invariant). -/
theorem lookup_mergeMaps (m2 : AggMap) (h2 : NodupKeys m2) :
    ∀ (m1 : AggMap) (k : List Nat),
      lookupStation (mergeMaps m1 m2) k =
        combineOpt (lookupStation m1 k) (lookupStation m2 k) := by
  induction m2 with
  | nil =>
    intro m1 k
    exact (combineOpt_none_right _).symm
  | cons hd rest ih =>
    obtain ⟨k', s⟩ := hd
    intro m1 k
    rw [NodupKeys, List.map_cons, List.nodup_cons] at h2
    have step : mergeMaps m1 ((k', s) :: rest) =
        mergeMaps (entryUpdate m1 k'
          (fun e =>
            { max_temp := max s.max_temp e.max_temp
              min_temp := min s.min_temp e.min_temp
              sum_temp := e.sum_temp + s.sum_temp
              n := e.n + s.n }) s) rest := rfl
    rw [step, ih h2.2, lookup_entryUpdate]
    by_cases hk : k' = k
    · rw [if_pos hk]
      subst hk
      have hrest : lookupStation rest k' = none :=
        lookup_eq_none_of_not_mem_keys h2.1
      have hl : lookupStation ((k', s) :: rest) k' = some s := by
        simp [lookupStation]
      rw [hrest, combineOpt_none_right, hl]
      cases h : lookupStation m1 k' with
      | none => simp [combineOpt]
      | some e => simp [combineOpt, min_comm, max_comm]
    · rw [if_neg hk]
      have hl : lookupStation ((k', s) :: rest) k = lookupStation rest k := by
        simp [lookupStation, hk]
      rw [hl]

/-! ## Claim theorem: C4 (Merge Reducer associativity) -/

/-- C4: the Merge Reducer (the reduce closure in `parallel_memory_mapped`)
is associative: for any three partial Aggregate Mappings `A`, `B`, `C`
(each satisfying the `HashMap` distinct-keys invariant),
`merge(merge(A,B),C)` and `merge(A,merge(B,C))` agree on every key's full
statistics record (min, max, sum, count).  Temperatures are modelled as
exact rationals, so the sums agree exactly; over `f64` only the summation
order differs. -/
theorem c4_merge_associative (A B C : AggMap) (hB : NodupKeys B)
    (hC : NodupKeys C) (k : List Nat) :
    lookupStation (mergeMaps (mergeMaps A B) C) k =
      lookupStation (mergeMaps A (mergeMaps B C)) k := by
  rw [lookup_mergeMaps C hC, lookup_mergeMaps B hB,
    lookup_mergeMaps (mergeMaps B C) (nodupKeys_mergeMaps hB),
    lookup_mergeMaps C hC, combineOpt_assoc]

theorem c4_merge_associative_witness :
    lookupStation
        (mergeMaps (mergeMaps [([97], ⟨1, 2, 3, 2⟩)] [([97], ⟨0, 5, 5, 1⟩)])
          [([98], ⟨1, 1, 1, 1⟩)]) [97] =
      lookupStation
        (mergeMaps [([97], ⟨1, 2, 3, 2⟩)]
          (mergeMaps [([97], ⟨0, 5, 5, 1⟩)] [([98], ⟨1, 1, 1, 1⟩)])) [97] :=
  c4_merge_associative [([97], ⟨1, 2, 3, 2⟩)] [([97], ⟨0, 5, 5, 1⟩)]
    [([98], ⟨1, 1, 1, 1⟩)] (by unfold NodupKeys; decide)
    (by unfold NodupKeys; decide) [97]

/-! ## The statistics invariant (C8) -/

theorem statsInv_entryUpdate {m : AggMap} {k : List Nat}
    {f : StationData → StationData} {d : StationData} (h : StatsInvMap m)
    (hf : ∀ s : StationData, s.min_temp ≤ s.max_temp → 1 ≤ s.n →
      (f s).min_temp ≤ (f s).max_temp ∧ 1 ≤ (f s).n)
    (hd : d.min_temp ≤ d.max_temp ∧ 1 ≤ d.n) :
    StatsInvMap (entryUpdate m k f d) := by
  induction m with
  | nil =>
    intro kv hkv
    rw [show entryUpdate [] k f d = [(k, d)] from rfl, List.mem_singleton] at hkv
    subst hkv
    exact hd
  | cons hd' rest ih =>
    obtain ⟨a, s⟩ := hd'
    have hs := h (a, s) (List.mem_cons_self _ _)
    have hrest : StatsInvMap rest := fun kv hkv => h kv (List.mem_cons_of_mem _ hkv)
    intro kv hkv
    by_cases hak : a = k
    · rw [show entryUpdate ((a, s) :: rest) k f d =
          (if a = k then (a, f s) :: rest else (a, s) :: entryUpdate rest k f d)
          from rfl, if_pos hak, List.mem_cons] at hkv
      rcases hkv with rfl | hkv
      · exact hf s hs.1 hs.2
      · exact hrest kv hkv
    · rw [show entryUpdate ((a, s) :: rest) k f d =
          (if a = k then (a, f s) :: rest else (a, s) :: entryUpdate rest k f d)
          from rfl, if_neg hak, List.mem_cons] at hkv
      rcases hkv with rfl | hkv
      · exact hs
      · exact ih hrest kv hkv

theorem process_record_inv {data : List Nat} {m : AggMap}
    {ss se ts te : Nat} {m' : AggMap}
    (hok : process_record data m ss se ts te = .ok m') (h : StatsInvMap m) :
    StatsInvMap m' := by
  unfold process_record at hok
  split at hok
  · split at hok
    · split at hok
      · split at hok
        · split at hok
          · rw [Except.ok.injEq] at hok
            subst hok
            refine statsInv_entryUpdate h ?_ ?_
            · intro s hmin hn
              constructor
              · dsimp only
                split_ifs with h1 h2 h2 <;> linarith
              · dsimp only
                omega
            · exact ⟨le_refl _, le_refl _⟩
          · exact absurd hok (by simp)
        · exact absurd hok (by simp)
      · exact absurd hok (by simp)
    · exact absurd hok (by simp)
  · exact absurd hok (by simp)

theorem statsInvMap_nil : StatsInvMap [] := by
  intro kv hkv
  cases hkv

theorem scanLoopGo_inv (data : List Nat) :
    ∀ (fuel i ss se ts : Nat) (m : AggMap)
      (r : AggMap × Nat × Nat × Nat),
      scanLoopGo data fuel i ss se ts m = .ok r →
      StatsInvMap m → StatsInvMap r.1 := by
  intro fuel
  induction fuel with
  | zero =>
    intro i ss se ts m r hok hm
    rw [scanLoopGo, Except.ok.injEq] at hok
    rw [← hok]
    exact hm
  | succ f ih =>
    intro i ss se ts m r hok hm
    rw [scanLoopGo] at hok
    split at hok
    · split at hok
      · split at hok
        · exact absurd hok (by simp)
        · rename_i m' hpr
          exact ih _ _ _ _ _ _ hok (process_record_inv hpr hm)
      · split at hok
        · exact ih _ _ _ _ _ _ hok hm
        · exact ih _ _ _ _ _ _ hok hm
    · rw [Except.ok.injEq] at hok
      rw [← hok]
      exact hm

theorem read_stations_data_slice_inv {data : List Nat} {m' : AggMap}
    (hok : read_stations_data_slice data = .ok m') : StatsInvMap m' := by
  unfold read_stations_data_slice at hok
  split at hok
  · exact absurd hok (by simp)
  · rename_i m ss se ts heq
    have hm : StatsInvMap m :=
      scanLoopGo_inv data _ _ _ _ _ _ _ heq statsInvMap_nil
    split at hok
    · split at hok
      · rw [Except.ok.injEq] at hok
        rw [← hok]
        exact hm
      · exact process_record_inv hok hm
    · exact absurd hok (by simp)

theorem statsInv_mergeMaps {m2 : AggMap} (h2 : StatsInvMap m2) :
    ∀ {m1 : AggMap}, StatsInvMap m1 → StatsInvMap (mergeMaps m1 m2) := by
  induction m2 with
  | nil => intro m1 h1; exact h1
  | cons hd rest ih =>
    intro m1 h1
    have hhd := h2 hd (List.mem_cons_self _ _)
    have hrest : StatsInvMap rest := fun kv hkv => h2 kv (List.mem_cons_of_mem _ hkv)
    have step : mergeMaps m1 (hd :: rest) =
        mergeMaps (entryUpdate m1 hd.1
          (fun e =>
            { max_temp := max hd.2.max_temp e.max_temp
              min_temp := min hd.2.min_temp e.min_temp
              sum_temp := e.sum_temp + hd.2.sum_temp
              n := e.n + hd.2.n }) hd.2) rest := rfl
    rw [step]
    refine ih hrest (statsInv_entryUpdate h1 ?_ hhd)
    intro s hmin hn
    constructor
    · dsimp only
      calc min hd.2.min_temp s.min_temp ≤ hd.2.min_temp := min_le_left _ _
        _ ≤ hd.2.max_temp := hhd.1
        _ ≤ max hd.2.max_temp s.max_temp := le_max_left _ _
    · dsimp only
      omega

theorem mapExcept_ok_mem {f : Nat × Nat → Except RunError AggMap} :
    ∀ {l : List (Nat × Nat)} {ys : List AggMap}, mapExcept f l = .ok ys →
      ∀ y ∈ ys, ∃ x ∈ l, f x = .ok y := by
  intro l
  induction l with
  | nil =>
    intro ys hok y hy
    rw [mapExcept, Except.ok.injEq] at hok
    rw [← hok] at hy
    cases hy
  | cons x xs ih =>
    intro ys hok y hy
    rw [mapExcept] at hok
    cases hfx : f x with
    | error e => rw [hfx] at hok; exact absurd hok (by simp)
    | ok y' =>
      rw [hfx] at hok
      cases hrest : mapExcept f xs with
      | error e => rw [hrest] at hok; exact absurd hok (by simp)
      | ok ys' =>
        rw [hrest, Except.ok.injEq] at hok
        rw [← hok, List.mem_cons] at hy
        rcases hy with rfl | hy
        · exact ⟨x, List.mem_cons_self _ _, hfx⟩
        · obtain ⟨x', hx', hfx'⟩ := ih hrest y hy
          exact ⟨x', List.mem_cons_of_mem _ hx', hfx'⟩

theorem statsInv_foldl_merge :
    ∀ {ms : List AggMap}, (∀ mi ∈ ms, StatsInvMap mi) →
      ∀ {acc : AggMap}, StatsInvMap acc →
        StatsInvMap (ms.foldl mergeMaps acc) := by
  intro ms
  induction ms with
  | nil => intro _ acc hacc; exact hacc
  | cons m ms ih =>
    intro h acc hacc
    rw [List.foldl_cons]
    exact ih (fun mi hmi => h mi (List.mem_cons_of_mem _ hmi))
      (statsInv_mergeMaps (h m (List.mem_cons_self _ _)) hacc)

theorem parallelRunWith_inv {S : Nat} {data : List Nat} {m : AggMap}
    (hok : parallelRunWith S data = .ok m) : StatsInvMap m := by
  unfold parallelRunWith at hok
  split at hok
  · exact absurd hok (by simp)
  · rename_i ms heq
    rw [Except.ok.injEq] at hok
    rw [← hok]
    refine statsInv_foldl_merge ?_ statsInvMap_nil
    intro mi hmi
    obtain ⟨r, _, hfr⟩ := mapExcept_ok_mem heq mi hmi
    exact read_stations_data_slice_inv hfr

/-! ## Claim theorem: C8 (statistics invariant) -/

/-- C8: for every entry present in any Aggregate Mapping produced by chunk
aggregation (`read_stations_data_slice`, whose per-record work is
`process_record`) or by merging, `min ≤ max` and `count ≥ 1` hold, and the
invariant is preserved by every merge and by the whole parallel pipeline. -/
theorem c8_stats_invariant :
    (∀ (data : List Nat) (m : AggMap),
        read_stations_data_slice data = .ok m → StatsInvMap m) ∧
    (∀ m1 m2 : AggMap, StatsInvMap m1 → StatsInvMap m2 →
        StatsInvMap (mergeMaps m1 m2)) ∧
    (∀ (data : List Nat) (m : AggMap),
        parallel_memory_mapped data = .ok m → StatsInvMap m) :=
  ⟨fun _ _ hok => read_stations_data_slice_inv hok,
    fun _ _ h1 h2 => statsInv_mergeMaps h2 h1,
    fun _ _ hok => parallelRunWith_inv hok⟩

theorem c8_stats_invariant_witness :
    StatsInvMap [([97], ⟨1, 1, 1, 1⟩)] :=
  c8_stats_invariant.1 [97, 59, 49, 10] [([97], ⟨1, 1, 1, 1⟩)] (by decide)

/-! ## Byte-level facts about the number parser and UTF-8 validation -/

/-- The byte facts needed about every byte of a string the parser accepts:
ASCII, and none of newline, delimiter, carriage return. -/
def benignByte (b : Nat) : Prop := b ≤ 127 ∧ b ≠ 10 ∧ b ≠ 59 ∧ b ≠ 13

theorem parseSign_decomp (s : List Nat) :
    ∃ pre, (∀ b ∈ pre, b = 43 ∨ b = 45) ∧ s = pre ++ (parseSign s).2 := by
  cases s with
  | nil => exact ⟨[], by simp, rfl⟩
  | cons c r =>
    by_cases h43 : c = 43
    · subst h43
      refine ⟨[43], by simp, ?_⟩
      simp [parseSign]
    · by_cases h45 : c = 45
      · subst h45
        refine ⟨[45], by simp, ?_⟩
        simp [parseSign]
      · refine ⟨[], by simp, ?_⟩
        simp [parseSign, h43, h45]

theorem benign_of_digit {b : Nat} (h : isDigit b = true) : benignByte b := by
  rw [isDigit, Bool.and_eq_true, decide_eq_true_eq, decide_eq_true_eq] at h
  refine ⟨by omega, by omega, by omega, by omega⟩

theorem benign_of_sign {b : Nat} (h : b = 43 ∨ b = 45) : benignByte b := by
  rcases h with rfl | rfl <;> exact ⟨by omega, by omega, by omega, by omega⟩

theorem parseExpPart_bytes {mant : Rat} {rest : List Nat} {q : Rat}
    (h : parseExpPart mant rest = some q) : ∀ b ∈ rest, benignByte b := by
  cases rest with
  | nil => intro b hb; cases hb
  | cons c r =>
    simp only [parseExpPart] at h
    split at h
    · rename_i hce
      split at h
      · exact absurd h (by simp)
      · rename_i hcond
        push_neg at hcond
        intro b hb
        rw [List.mem_cons] at hb
        rcases hb with rfl | hb
        · rcases hce with rfl | rfl <;>
            exact ⟨by omega, by omega, by omega, by omega⟩
        · obtain ⟨pre, hpre, hr⟩ := parseSign_decomp r
          rw [hr] at hb
          rw [List.mem_append] at hb
          rcases hb with hb | hb
          · exact benign_of_sign (hpre b hb)
          · have hsplit := List.takeWhile_append_dropWhile (p := isDigit)
              (l := (parseSign r).2)
            rw [← hsplit, List.mem_append] at hb
            rcases hb with hb | hb
            · exact benign_of_digit (List.mem_takeWhile_imp hb)
            · rw [hcond.2] at hb
              cases hb
    · exact absurd h (by simp)

theorem parseF64_bytes {v : List Nat} {q : Rat} (h : parseF64 v = some q) :
    ∀ b ∈ v, benignByte b := by
  simp only [parseF64] at h
  obtain ⟨pre, hpre, hv⟩ := parseSign_decomp v
  have hsplit := List.takeWhile_append_dropWhile (p := isDigit)
    (l := (parseSign v).2)
  intro b hb
  rw [hv, List.mem_append] at hb
  rcases hb with hb | hb
  · exact benign_of_sign (hpre b hb)
  rw [← hsplit, List.mem_append] at hb
  rcases hb with hb | hb
  · exact benign_of_digit (List.mem_takeWhile_imp hb)
  -- b is in the part after the integral digits
  revert h
  split
  · rename_i r hr
    intro h
    split at h
    · exact absurd h (by simp)
    · have hsplit2 := List.takeWhile_append_dropWhile (p := isDigit) (l := r)
      rw [hr, List.mem_cons] at hb
      rcases hb with rfl | hb
      · exact ⟨by omega, by omega, by omega, by omega⟩
      · rw [← hsplit2, List.mem_append] at hb
        rcases hb with hb | hb
        · exact benign_of_digit (List.mem_takeWhile_imp hb)
        · exact parseExpPart_bytes h b hb
  · rename_i hne
    intro h
    split at h
    · exact absurd h (by simp)
    · exact parseExpPart_bytes h b hb

theorem parseF64_nil : parseF64 [] = none := rfl

theorem parseF64_ne_nil {v : List Nat} {q : Rat} (h : parseF64 v = some q) :
    v ≠ [] := by
  intro hv
  rw [hv, parseF64_nil] at h
  cases h

theorem cont1_length {rest r : List Nat} (h : cont1 rest = some r) :
    r.length ≤ rest.length := by
  cases rest with
  | nil => exact absurd h (by simp [cont1])
  | cons c1 r1 =>
    rw [cont1] at h
    split at h
    · rw [Option.some.injEq] at h
      subst h
      simp
    · exact absurd h (by simp)

theorem cont2_length {lo hi : Nat} {rest r : List Nat}
    (h : cont2 lo hi rest = some r) : r.length ≤ rest.length := by
  rcases rest with _ | ⟨c1, _ | ⟨c2, r2⟩⟩
  · exact absurd h (by simp [cont2])
  · exact absurd h (by simp [cont2])
  · rw [cont2] at h
    split at h
    · rw [Option.some.injEq] at h
      subst h
      simp
      omega
    · exact absurd h (by simp)

theorem cont3_length {lo hi : Nat} {rest r : List Nat}
    (h : cont3 lo hi rest = some r) : r.length ≤ rest.length := by
  rcases rest with _ | ⟨c1, _ | ⟨c2, _ | ⟨c3, r3⟩⟩⟩
  · exact absurd h (by simp [cont3])
  · exact absurd h (by simp [cont3])
  · exact absurd h (by simp [cont3])
  · rw [cont3] at h
    split at h
    · rw [Option.some.injEq] at h
      subst h
      simp
      omega
    · exact absurd h (by simp)

theorem utf8Step_length {b : Nat} {rest r : List Nat}
    (h : utf8Step b rest = some r) : r.length ≤ rest.length := by
  unfold utf8Step at h
  repeat' split at h
  all_goals first
    | (rw [Option.some.injEq] at h; subst h; exact le_refl _)
    | exact cont1_length h
    | exact cont2_length h
    | exact cont3_length h
    | exact absurd h (by simp)

theorem validUtf8Go_congr : ∀ (fuel fuel' : Nat) (l : List Nat),
    l.length ≤ fuel → l.length ≤ fuel' →
    validUtf8Go fuel l = validUtf8Go fuel' l := by
  intro fuel
  induction fuel with
  | zero =>
    intro fuel' l h h'
    cases l with
    | nil => cases fuel' <;> rfl
    | cons b rest => simp at h
  | succ f ih =>
    intro fuel' l h h'
    cases l with
    | nil => cases fuel' <;> rfl
    | cons b rest =>
      cases fuel' with
      | zero => simp at h'
      | succ f' =>
        rw [validUtf8Go, validUtf8Go]
        cases hs : utf8Step b rest with
        | none => rfl
        | some r =>
          have hlen := utf8Step_length hs
          rw [List.length_cons] at h h'
          exact ih f' r (by omega) (by omega)

theorem validUtf8_def (l : List Nat) : validUtf8 l = validUtf8Go l.length l := rfl

/-- The one-code-point unfolding of the UTF-8 validator. -/
theorem validUtf8_cons (b : Nat) (rest : List Nat) :
    validUtf8 (b :: rest) =
      match utf8Step b rest with
      | some r => validUtf8 r
      | none => false := by
  rw [validUtf8_def, List.length_cons, validUtf8Go]
  cases hs : utf8Step b rest with
  | none => rfl
  | some r =>
    have hlen := utf8Step_length hs
    show validUtf8Go rest.length r = validUtf8 r
    rw [validUtf8_def]
    exact validUtf8Go_congr _ _ _ (by omega) (le_refl _)

theorem utf8Step_ascii {b : Nat} (rest : List Nat) (h : b ≤ 127) :
    utf8Step b rest = some rest := by
  unfold utf8Step
  rw [if_pos h]

theorem validUtf8_ascii_cons {b : Nat} (rest : List Nat) (h : b ≤ 127) :
    validUtf8 (b :: rest) = validUtf8 rest := by
  rw [validUtf8_cons, utf8Step_ascii rest h]

theorem validUtf8_of_ascii : ∀ {l : List Nat}, (∀ b ∈ l, b ≤ 127) →
    validUtf8 l = true := by
  intro l
  induction l with
  | nil => intro _; rfl
  | cons b rest ih =>
    intro h
    rw [validUtf8_ascii_cons rest (h b (List.mem_cons_self _ _))]
    exact ih (fun b' hb' => h b' (List.mem_cons_of_mem _ hb'))

theorem cont1_append {rest r x : List Nat} (h : cont1 rest = some r) :
    cont1 (rest ++ x) = some (r ++ x) := by
  cases rest with
  | nil => exact absurd h (by simp [cont1])
  | cons c1 r1 =>
    rw [cont1] at h
    split at h
    · rename_i hc
      rw [Option.some.injEq] at h
      subst h
      rw [List.cons_append, cont1, if_pos hc]
    · exact absurd h (by simp)

theorem cont2_append {lo hi : Nat} {rest r x : List Nat}
    (h : cont2 lo hi rest = some r) :
    cont2 lo hi (rest ++ x) = some (r ++ x) := by
  rcases rest with _ | ⟨c1, _ | ⟨c2, r2⟩⟩
  · exact absurd h (by simp [cont2])
  · exact absurd h (by simp [cont2])
  · rw [cont2] at h
    split at h
    · rename_i hc
      rw [Option.some.injEq] at h
      subst h
      rw [List.cons_append, List.cons_append, cont2, if_pos hc]
    · exact absurd h (by simp)

theorem cont3_append {lo hi : Nat} {rest r x : List Nat}
    (h : cont3 lo hi rest = some r) :
    cont3 lo hi (rest ++ x) = some (r ++ x) := by
  rcases rest with _ | ⟨c1, _ | ⟨c2, _ | ⟨c3, r3⟩⟩⟩
  · exact absurd h (by simp [cont3])
  · exact absurd h (by simp [cont3])
  · exact absurd h (by simp [cont3])
  · rw [cont3] at h
    split at h
    · rename_i hc
      rw [Option.some.injEq] at h
      subst h
      rw [List.cons_append, List.cons_append, List.cons_append, cont3,
        if_pos hc]
    · exact absurd h (by simp)

theorem utf8Step_append {b : Nat} {rest r x : List Nat}
    (h : utf8Step b rest = some r) :
    utf8Step b (rest ++ x) = some (r ++ x) := by
  unfold utf8Step at h ⊢
  repeat' split at h
  all_goals repeat' split
  all_goals first
    | (rw [Option.some.injEq] at h; subst h; rfl)
    | exact cont1_append h
    | exact cont2_append h
    | exact cont3_append h
    | exact absurd h (by simp)
    | (exfalso; omega)

/-- Concatenating two well-formed UTF-8 byte lists is well-formed. -/
theorem validUtf8_append : ∀ {a : List Nat}, validUtf8 a = true →
    ∀ {b : List Nat}, validUtf8 b = true → validUtf8 (a ++ b) = true := by
  suffices H : ∀ (n : Nat) (a : List Nat), a.length ≤ n → validUtf8 a = true →
      ∀ (b : List Nat), validUtf8 b = true → validUtf8 (a ++ b) = true by
    intro a ha b hb
    exact H a.length a (le_refl _) ha b hb
  intro n
  induction n with
  | zero =>
    intro a hlen ha b hb
    cases a with
    | nil => exact hb
    | cons c rest => simp at hlen
  | succ n ih =>
    intro a hlen ha b hb
    cases a with
    | nil => exact hb
    | cons c rest =>
      rw [validUtf8_cons] at ha
      cases hs : utf8Step c rest with
      | none => rw [hs] at ha; cases ha
      | some r =>
        rw [hs] at ha
        have hlen2 := utf8Step_length hs
        rw [List.length_cons] at hlen
        rw [List.cons_append, validUtf8_cons, utf8Step_append hs]
        exact ih r (by omega) ha b hb

theorem validUtf8_parse {v : List Nat} {q : Rat} (h : parseF64 v = some q) :
    validUtf8 v = true :=
  validUtf8_of_ascii (fun b hb => (parseF64_bytes h b hb).1)

/-! ## Scanner step lemmas -/

theorem getD_middle (pre : List Nat) (b : Nat) (l : List Nat) :
    (pre ++ b :: l).getD pre.length 0 = b := by
  rw [List.getD_append_right _ _ _ _ (le_refl _), Nat.sub_self]
  rfl

theorem sub_middle (pre mid post : List Nat) :
    sub (pre ++ mid ++ post) pre.length (pre.length + mid.length) = mid := by
  rw [sub, List.append_assoc, List.drop_left, Nat.add_sub_cancel_left,
    List.take_left]

theorem scanLoop_skip {data : List Nat} {i ss se ts : Nat} {m : AggMap}
    (hi : i < data.length) (h10 : data.getD i 0 ≠ 10)
    (h59 : data.getD i 0 ≠ 59) :
    scanLoop data i ss se ts m = scanLoop data (i + 1) ss se ts m := by
  rw [scanLoop_eq, if_pos hi, if_neg h10, if_neg h59]

theorem scanLoop_delim {data : List Nat} {i ss se ts : Nat} {m : AggMap}
    (hi : i < data.length) (h59 : data.getD i 0 = 59) :
    scanLoop data i ss se ts m = scanLoop data (i + 1) ss i (i + 1) m := by
  have h10 : data.getD i 0 ≠ 10 := by rw [h59]; omega
  rw [scanLoop_eq, if_pos hi, if_neg h10, if_pos h59]

theorem scanLoop_newline {data : List Nat} {i ss se ts : Nat} {m : AggMap}
    (hi : i < data.length) (h10 : data.getD i 0 = 10) :
    scanLoop data i ss se ts m =
      match process_record data m ss se ts i with
      | .error e => .error e
      | .ok m' => scanLoop data (i + 1) (i + 1) se ts m' := by
  rw [scanLoop_eq, if_pos hi, if_pos h10]

theorem scanLoop_end {data : List Nat} {i ss se ts : Nat} {m : AggMap}
    (hi : data.length ≤ i) :
    scanLoop data i ss se ts m = .ok (m, ss, se, ts) := by
  rw [scanLoop_eq, if_neg (by omega)]

/-- Scanning over a run of bytes that are neither newline nor delimiter
leaves the offsets and the map unchanged. -/
theorem scanLoop_skip_run :
    ∀ (seg pre post : List Nat) (ss se ts : Nat) (m : AggMap),
      (∀ b ∈ seg, b ≠ 10 ∧ b ≠ 59) →
      scanLoop (pre ++ seg ++ post) pre.length ss se ts m =
        scanLoop (pre ++ seg ++ post) (pre.length + seg.length) ss se ts m := by
  intro seg
  induction seg with
  | nil => intro pre post ss se ts m _; simp
  | cons b rest ih =>
    intro pre post ss se ts m hben
    have hb := hben b (List.mem_cons_self _ _)
    have hidx : (pre ++ (b :: rest) ++ post).getD pre.length 0 = b := by
      rw [List.append_assoc, List.cons_append]
      rw [← List.cons_append, ← List.append_assoc]
      rw [List.append_assoc pre (b :: rest) post, List.cons_append]
      exact getD_middle pre b (rest ++ post)
    have hlen : pre.length < (pre ++ (b :: rest) ++ post).length := by
      simp
    rw [scanLoop_skip hlen (by rw [hidx]; exact hb.1)
      (by rw [hidx]; exact hb.2)]
    have hre : pre ++ (b :: rest) ++ post = (pre ++ [b]) ++ rest ++ post := by
      simp
    have hl1 : pre.length + 1 = (pre ++ [b]).length := by simp
    rw [hre, hl1,
      ih (pre ++ [b]) post ss se ts m
        (fun b' hb' => hben b' (List.mem_cons_of_mem _ hb'))]
    have hl2 : (pre ++ [b]).length + rest.length =
        pre.length + (b :: rest).length := by
      simp
      omega
    rw [hl2]

theorem ite_lt_eq_min (q x : Rat) : (if q < x then q else x) = min q x := by
  rcases le_or_lt x q with h | h
  · rw [if_neg (not_lt.mpr h), min_eq_right h]
  · rw [if_pos h, min_eq_left (le_of_lt h)]

theorem ite_gt_eq_max (q x : Rat) : (if x < q then q else x) = max q x := by
  rcases le_or_lt q x with h | h
  · rw [if_neg (not_lt.mpr h), max_eq_right h]
  · rw [if_pos h, max_eq_left (le_of_lt h)]

/-- On a parseable temperature span and a valid station span,
`process_record` succeeds and performs the canonical statistics fold. -/
theorem process_record_ok {data : List Nat} {m : AggMap} {ss se ts te : Nat}
    {q : Rat} (hss : ss ≤ se) (hsel : se ≤ data.length) (hts : ts ≤ te)
    (htel : te ≤ data.length) (hutf : validUtf8 (sub data ss se) = true)
    (hparse : parseF64 (sub data ts te) = some q) :
    process_record data m ss se ts te =
      .ok (entryUpdate m (sub data ss se) (fun e => combineVal e q)
        (singleStats q)) := by
  unfold process_record
  rw [if_pos ⟨hss, hsel⟩, if_pos hutf, if_pos ⟨hts, htel⟩,
    if_pos (validUtf8_parse hparse), hparse]
  dsimp only
  congr 1
  congr 1
  funext e
  rw [combineVal]
  rw [ite_lt_eq_min, ite_gt_eq_max]

/-- Benign bytes (as produced by a parse-accepted span) are neither newline
nor delimiter. -/
theorem benign_ne {v : List Nat} {q : Rat} (hparse : parseF64 v = some q) :
    ∀ b ∈ v, b ≠ 10 ∧ b ≠ 59 := by
  intro b hb
  have := parseF64_bytes hparse b hb
  exact ⟨this.2.1, this.2.2.1⟩

/-- Scanning one well-formed, newline-terminated record `key;value` starting
at a fresh record start folds the record into the map and moves every offset
past the terminator. -/
theorem scanLoop_record (pre post k v : List Nat) (q : Rat) (se ts : Nat)
    (m : AggMap) (hk : ∀ b ∈ k, b ≠ 59 ∧ b ≠ 10) (hutf : validUtf8 k = true)
    (hparse : parseF64 v = some q) :
    scanLoop (pre ++ (k ++ 59 :: v) ++ 10 :: post) pre.length pre.length se ts
        m =
      scanLoop (pre ++ (k ++ 59 :: v) ++ 10 :: post)
        (pre.length + k.length + 1 + v.length + 1)
        (pre.length + k.length + 1 + v.length + 1)
        (pre.length + k.length) (pre.length + k.length + 1)
        (entryUpdate m k (fun e => combineVal e q) (singleStats q)) := by
  have hform1 : pre ++ (k ++ 59 :: v) ++ 10 :: post =
      pre ++ k ++ (59 :: (v ++ 10 :: post)) := by simp
  have hform2 : pre ++ (k ++ 59 :: v) ++ 10 :: post =
      (pre ++ k ++ [59]) ++ v ++ (10 :: post) := by simp
  have hform3 : pre ++ (k ++ 59 :: v) ++ 10 :: post =
      (pre ++ k ++ [59] ++ v) ++ 10 :: post := by simp
  have hlen : (pre ++ (k ++ 59 :: v) ++ 10 :: post).length =
      pre.length + k.length + 1 + v.length + 1 + post.length := by
    simp only [List.length_append, List.length_cons]
    omega
  -- 1. scan over the key bytes
  have step1 :
      scanLoop (pre ++ (k ++ 59 :: v) ++ 10 :: post) pre.length pre.length se
        ts m =
      scanLoop (pre ++ (k ++ 59 :: v) ++ 10 :: post)
        (pre.length + k.length) pre.length se ts m := by
    conv_lhs => rw [hform1]
    rw [scanLoop_skip_run k pre (59 :: (v ++ 10 :: post)) pre.length se ts m
      (fun b hb => ⟨(hk b hb).2, (hk b hb).1⟩)]
    rw [← hform1]
  -- 2. the delimiter byte
  have hd59 : (pre ++ (k ++ 59 :: v) ++ 10 :: post).getD
      (pre.length + k.length) 0 = 59 := by
    conv_lhs => rw [hform1]
    have h : pre.length + k.length = (pre ++ k).length := by
      simp only [List.length_append]
    rw [h]
    exact getD_middle (pre ++ k) 59 (v ++ 10 :: post)
  have step2 :
      scanLoop (pre ++ (k ++ 59 :: v) ++ 10 :: post)
        (pre.length + k.length) pre.length se ts m =
      scanLoop (pre ++ (k ++ 59 :: v) ++ 10 :: post)
        (pre.length + k.length + 1) pre.length (pre.length + k.length)
        (pre.length + k.length + 1) m :=
    scanLoop_delim (by omega) hd59
  -- 3. scan over the value bytes
  have step3 :
      scanLoop (pre ++ (k ++ 59 :: v) ++ 10 :: post)
        (pre.length + k.length + 1) pre.length (pre.length + k.length)
        (pre.length + k.length + 1) m =
      scanLoop (pre ++ (k ++ 59 :: v) ++ 10 :: post)
        (pre.length + k.length + 1 + v.length) pre.length
        (pre.length + k.length) (pre.length + k.length + 1) m := by
    conv_lhs => rw [hform2]
    have hidx : pre.length + k.length + 1 = (pre ++ k ++ [59]).length := by
      simp only [List.length_append, List.length_cons, List.length_nil]
    rw [hidx,
      scanLoop_skip_run v (pre ++ k ++ [59]) (10 :: post) _ _ _ m
        (benign_ne hparse), ← hform2, ← hidx]
  -- 4. the terminator: process the record
  have hd10 : (pre ++ (k ++ 59 :: v) ++ 10 :: post).getD
      (pre.length + k.length + 1 + v.length) 0 = 10 := by
    conv_lhs => rw [hform3]
    have h : pre.length + k.length + 1 + v.length =
        (pre ++ k ++ [59] ++ v).length := by
      simp only [List.length_append, List.length_cons, List.length_nil]
      try omega
    rw [h]
    exact getD_middle _ 10 post
  have hstation : sub (pre ++ (k ++ 59 :: v) ++ 10 :: post) pre.length
      (pre.length + k.length) = k := by
    conv_lhs => rw [hform1]
    exact sub_middle pre k (59 :: (v ++ 10 :: post))
  have htemp : sub (pre ++ (k ++ 59 :: v) ++ 10 :: post)
      (pre.length + k.length + 1) (pre.length + k.length + 1 + v.length) =
      v := by
    conv_lhs => rw [hform2]
    have h1 : pre.length + k.length + 1 = (pre ++ k ++ [59]).length := by
      simp only [List.length_append, List.length_cons, List.length_nil]
    have h2 : pre.length + k.length + 1 + v.length =
        (pre ++ k ++ [59]).length + v.length := by
      simp only [List.length_append, List.length_cons, List.length_nil]
    rw [h2, h1]
    exact sub_middle (pre ++ k ++ [59]) v (10 :: post)
  have hpr := @process_record_ok (pre ++ (k ++ 59 :: v) ++ 10 :: post) m
    pre.length (pre.length + k.length) (pre.length + k.length + 1)
    (pre.length + k.length + 1 + v.length) q
    (by omega) (by omega) (by omega) (by omega)
    (by rw [hstation]; exact hutf) (by rw [htemp]; exact hparse)
  rw [step1, step2, step3,
    scanLoop_newline (by omega) hd10, hpr, hstation]

/-! ## Lines of a well-formed input and the scanner -/

theorem joinLines_cons_true (l : List Nat) (ls : List (List Nat)) :
    joinLines (l :: ls) true = l ++ 10 :: joinLines ls true := by
  cases ls with
  | nil => rfl
  | cons l2 r => rfl

theorem joinLines_cons_ne (l : List Nat) (ls : List (List Nat)) (t : Bool)
    (h : ls ≠ []) : joinLines (l :: ls) t = l ++ 10 :: joinLines ls t := by
  cases ls with
  | nil => exact absurd rfl h
  | cons l2 r => rfl

theorem joinLines_append_last (ls' : List (List Nat)) (l : List Nat) :
    joinLines (ls' ++ [l]) false = joinLines ls' true ++ l := by
  induction ls' with
  | nil => simp [joinLines]
  | cons x rest ih =>
    rw [List.cons_append, joinLines_cons_ne x (rest ++ [l]) false (by simp),
      joinLines_cons_true, ih]
    simp

theorem lineKey_parts (k v : List Nat) (hk : ∀ b ∈ k, b ≠ 59) :
    lineKey (k ++ 59 :: v) = k := by
  rw [lineKey]
  induction k with
  | nil => simp
  | cons b rest ih =>
    rw [List.cons_append, List.takeWhile_cons]
    have hb : b ≠ 59 := hk b (List.mem_cons_self _ _)
    rw [if_pos (decide_eq_true hb)]
    rw [ih (fun b' hb' => hk b' (List.mem_cons_of_mem _ hb'))]

theorem lineVal_parts (k v : List Nat) (hk : ∀ b ∈ k, b ≠ 59) :
    lineVal (k ++ 59 :: v) = v := by
  rw [lineVal]
  induction k with
  | nil => simp
  | cons b rest ih =>
    rw [List.cons_append, List.dropWhile_cons]
    have hb : b ≠ 59 := hk b (List.mem_cons_self _ _)
    rw [if_pos (decide_eq_true hb)]
    exact ih (fun b' hb' => hk b' (List.mem_cons_of_mem _ hb'))

theorem insertLine_parts {k v : List Nat} {q : Rat} (m : AggMap)
    (hk : ∀ b ∈ k, b ≠ 59) (hparse : parseF64 v = some q) :
    insertLine m (k ++ 59 :: v) =
      entryUpdate m k (fun e => combineVal e q) (singleStats q) := by
  rw [insertLine, lineVal_parts k v hk, lineKey_parts k v hk, hparse]

/-- Scanning a newline-terminated block of well-formed lines folds them all
into the map, ending at the end of the data with the record start there. -/
theorem scan_lines_true : ∀ (ls : List (List Nat)) (pre : List Nat)
    (se ts : Nat) (m : AggMap), (∀ l ∈ ls, WFline l) →
    ∃ se' ts',
      scanLoop (pre ++ joinLines ls true) pre.length pre.length se ts m =
        .ok (ls.foldl insertLine m, (pre ++ joinLines ls true).length,
          se', ts') := by
  intro ls
  induction ls with
  | nil =>
    intro pre se ts m _
    refine ⟨se, ts, ?_⟩
    rw [show joinLines [] true = [] from rfl, List.append_nil,
      List.foldl_nil]
    exact scanLoop_end (le_refl _)
  | cons l rest ih =>
    intro pre se ts m hwf
    obtain ⟨k, v, q, rfl, hk, hutf, hparse⟩ := hwf l (List.mem_cons_self _ _)
    rw [joinLines_cons_true]
    have hform : pre ++ ((k ++ 59 :: v) ++ 10 :: joinLines rest true) =
        pre ++ (k ++ 59 :: v) ++ 10 :: joinLines rest true := by
      simp
    rw [hform,
      scanLoop_record pre (joinLines rest true) k v q se ts m hk hutf hparse]
    have hidx : pre.length + k.length + 1 + v.length + 1 =
        (pre ++ (k ++ 59 :: v) ++ [10]).length := by
      simp only [List.length_append, List.length_cons, List.length_nil]
      omega
    have hform2 : pre ++ (k ++ 59 :: v) ++ 10 :: joinLines rest true =
        (pre ++ (k ++ 59 :: v) ++ [10]) ++ joinLines rest true := by simp
    rw [hidx, hform2]
    obtain ⟨se', ts', hres⟩ := ih (pre ++ (k ++ 59 :: v) ++ [10])
      (pre.length + k.length) (pre.length + k.length + 1)
      (entryUpdate m k (fun e => combineVal e q) (singleStats q))
      (fun l' hl' => hwf l' (List.mem_cons_of_mem _ hl'))
    refine ⟨se', ts', ?_⟩
    rw [hres, List.foldl_cons,
      insertLine_parts m (fun b hb => (hk b hb).1) hparse]

/-- Scanning an unterminated final record: the loop passes over it, leaving
the record's offsets to the trailing-record handler. -/
theorem scanLoop_tail (pre k v : List Nat) (se ts : Nat) (m : AggMap)
    (hk : ∀ b ∈ k, b ≠ 59 ∧ b ≠ 10) (hben : ∀ b ∈ v, b ≠ 10 ∧ b ≠ 59) :
    scanLoop (pre ++ (k ++ 59 :: v)) pre.length pre.length se ts m =
      .ok (m, pre.length, pre.length + k.length,
        pre.length + k.length + 1) := by
  have hform1 : pre ++ (k ++ 59 :: v) = pre ++ k ++ (59 :: v) := by simp
  have step1 :
      scanLoop (pre ++ (k ++ 59 :: v)) pre.length pre.length se ts m =
      scanLoop (pre ++ (k ++ 59 :: v)) (pre.length + k.length) pre.length se
        ts m := by
    conv_lhs => rw [hform1]
    rw [scanLoop_skip_run k pre (59 :: v) pre.length se ts m
      (fun b hb => ⟨(hk b hb).2, (hk b hb).1⟩), ← hform1]
  have hd59 : (pre ++ (k ++ 59 :: v)).getD (pre.length + k.length) 0 = 59 := by
    conv_lhs => rw [hform1]
    have h : pre.length + k.length = (pre ++ k).length := by
      simp only [List.length_append]
    rw [h]
    exact getD_middle (pre ++ k) 59 v
  have hlen : (pre ++ (k ++ 59 :: v)).length =
      pre.length + k.length + 1 + v.length := by
    simp only [List.length_append, List.length_cons]
    omega
  have step2 := @scanLoop_delim (pre ++ (k ++ 59 :: v))
    (pre.length + k.length) pre.length se ts m (by omega) hd59
  have hform2 : pre ++ (k ++ 59 :: v) = (pre ++ k ++ [59]) ++ v ++ [] := by
    simp
  have step3 :
      scanLoop (pre ++ (k ++ 59 :: v)) (pre.length + k.length + 1) pre.length
        (pre.length + k.length) (pre.length + k.length + 1) m =
      scanLoop (pre ++ (k ++ 59 :: v))
        (pre.length + k.length + 1 + v.length) pre.length
        (pre.length + k.length) (pre.length + k.length + 1) m := by
    conv_lhs => rw [hform2]
    have hidx : pre.length + k.length + 1 = (pre ++ k ++ [59]).length := by
      simp only [List.length_append, List.length_cons, List.length_nil]
    rw [hidx, scanLoop_skip_run v (pre ++ k ++ [59]) [] _ _ _ m hben,
      ← hform2, ← hidx]
  rw [step1, step2, step3, scanLoop_end (by omega)]

theorem joinLines_true_length_pos (ls : List (List Nat)) (h : ls ≠ []) :
    0 < (joinLines ls true).length := by
  cases ls with
  | nil => exact absurd rfl h
  | cons l rest =>
    rw [joinLines_cons_true]
    simp

theorem joinLines_true_getLast (ls : List (List Nat)) (h : ls ≠ []) :
    (joinLines ls true).getD ((joinLines ls true).length - 1) 0 = 10 := by
  induction ls with
  | nil => exact absurd rfl h
  | cons l rest ih =>
    rw [joinLines_cons_true]
    cases hr : rest with
    | nil =>
      rw [show joinLines [] true = [] from rfl]
      have : (l ++ [10]).length - 1 = l.length := by simp
      rw [show l ++ 10 :: ([] : List Nat) = l ++ [10] from rfl, this]
      exact getD_middle l 10 []
    | cons r2 rrest =>
      rw [← hr]
      have hrne : rest ≠ [] := by rw [hr]; simp
      have hpos := joinLines_true_length_pos rest hrne
      have hidx : (l ++ 10 :: joinLines rest true).length - 1 =
          (l ++ [10]).length + ((joinLines rest true).length - 1) := by
        simp only [List.length_append, List.length_cons, List.length_nil]
        omega
      have hform : l ++ 10 :: joinLines rest true =
          (l ++ [10]) ++ joinLines rest true := by simp
      rw [hidx, hform,
        List.getD_append_right _ _ _ _ (Nat.le_add_right _ _),
        Nat.add_sub_cancel_left]
      exact ih hrne

/-- A chunk consisting of well-formed lines, each terminated by a newline,
aggregates to the fold of its lines. -/
theorem read_slice_join_true (ls : List (List Nat)) (hne : ls ≠ [])
    (hwf : ∀ l ∈ ls, WFline l) :
    read_stations_data_slice (joinLines ls true) =
      .ok (ls.foldl insertLine []) := by
  obtain ⟨se', ts', hres⟩ := scan_lines_true ls [] 0 0 [] hwf
  rw [List.nil_append] at hres
  have hres' : scanLoop (joinLines ls true) 0 0 0 0 [] =
      .ok (ls.foldl insertLine [], (joinLines ls true).length, se', ts') :=
    hres
  unfold read_stations_data_slice
  rw [hres']
  dsimp only
  have hpos := joinLines_true_length_pos ls hne
  rw [if_pos (by omega), if_pos (joinLines_true_getLast ls hne)]

/-- Scanning well-formed lines where the final one is unterminated: all but
the last are folded in; the final state points at the last record. -/
theorem scan_lines_false : ∀ (ls' : List (List Nat)) (k v : List Nat)
    (q : Rat) (pre : List Nat) (se ts : Nat) (m : AggMap),
    (∀ l ∈ ls', WFline l) →
    (∀ b ∈ k, b ≠ 59 ∧ b ≠ 10) → validUtf8 k = true →
    parseF64 v = some q →
    scanLoop (pre ++ joinLines (ls' ++ [k ++ 59 :: v]) false) pre.length
        pre.length se ts m =
      .ok (ls'.foldl insertLine m,
        pre.length + (joinLines ls' true).length,
        pre.length + (joinLines ls' true).length + k.length,
        pre.length + (joinLines ls' true).length + k.length + 1) := by
  intro ls'
  induction ls' with
  | nil =>
    intro k v q pre se ts m _ hk hutf hparse
    rw [show joinLines ([] ++ [k ++ 59 :: v]) false = k ++ 59 :: v from
        by simp [joinLines],
      scanLoop_tail pre k v se ts m hk (benign_ne hparse)]
    rw [show joinLines [] true = [] from rfl]
    rw [List.foldl_nil]
    simp
  | cons x rest ih =>
    intro k v q pre se ts m hwf hk hutf hparse
    obtain ⟨kx, vx, qx, hx, hkx, hutfx, hparsex⟩ :=
      hwf x (List.mem_cons_self _ _)
    subst hx
    rw [List.cons_append,
      joinLines_cons_ne _ _ false (by simp)]
    have hform : pre ++ ((kx ++ 59 :: vx) ++
        10 :: joinLines (rest ++ [k ++ 59 :: v]) false) =
        pre ++ (kx ++ 59 :: vx) ++
          10 :: joinLines (rest ++ [k ++ 59 :: v]) false := by simp
    rw [hform, scanLoop_record pre (joinLines (rest ++ [k ++ 59 :: v]) false)
      kx vx qx se ts m hkx hutfx hparsex]
    have hidx : pre.length + kx.length + 1 + vx.length + 1 =
        (pre ++ (kx ++ 59 :: vx) ++ [10]).length := by
      simp only [List.length_append, List.length_cons, List.length_nil]
      omega
    have hform2 : pre ++ (kx ++ 59 :: vx) ++
        10 :: joinLines (rest ++ [k ++ 59 :: v]) false =
        (pre ++ (kx ++ 59 :: vx) ++ [10]) ++
          joinLines (rest ++ [k ++ 59 :: v]) false := by simp
    rw [hidx, hform2,
      ih k v q (pre ++ (kx ++ 59 :: vx) ++ [10])
        (pre.length + kx.length) (pre.length + kx.length + 1)
        (entryUpdate m kx (fun e => combineVal e qx) (singleStats qx))
        (fun l' hl' => hwf l' (List.mem_cons_of_mem _ hl')) hk hutf hparse,
      List.foldl_cons,
      insertLine_parts m (fun b hb => (hkx b hb).1) hparsex]
    have hL : (pre ++ (kx ++ 59 :: vx) ++ [10]).length +
        (joinLines rest true).length =
        pre.length + (joinLines ((kx ++ 59 :: vx) :: rest) true).length := by
      rw [joinLines_cons_true]
      simp only [List.length_append, List.length_cons, List.length_nil]
      omega
    rw [hL]

/-- A chunk of well-formed lines whose final record is unterminated
aggregates to the fold of its lines. -/
theorem read_slice_join_false (ls : List (List Nat)) (hne : ls ≠ [])
    (hwf : ∀ l ∈ ls, WFline l) :
    read_stations_data_slice (joinLines ls false) =
      .ok (ls.foldl insertLine []) := by
  obtain ⟨k, v, q, hlast, hk, hutf, hparse⟩ :=
    hwf (ls.getLast hne) (List.getLast_mem hne)
  have hsplit : ls = ls.dropLast ++ [k ++ 59 :: v] := by
    rw [← hlast]
    exact (List.dropLast_append_getLast hne).symm
  have hwf' : ∀ l ∈ ls.dropLast, WFline l := fun l hl =>
    hwf l (List.dropLast_subset _ hl)
  rw [hsplit]
  have hscan := scan_lines_false ls.dropLast k v q [] 0 0 [] hwf' hk hutf
    hparse
  rw [List.nil_append] at hscan
  have hJ : joinLines (ls.dropLast ++ [k ++ 59 :: v]) false =
      joinLines ls.dropLast true ++ (k ++ 59 :: v) :=
    joinLines_append_last _ _
  unfold read_stations_data_slice
  rw [show ([] : List Nat).length = 0 from rfl] at hscan
  simp only [Nat.zero_add] at hscan
  rw [hscan]
  dsimp only
  have hvne : v ≠ [] := parseF64_ne_nil hparse
  obtain ⟨b, v', hv⟩ : ∃ b v', v = v' ++ [b] := by
    refine ⟨v.getLast hvne, v.dropLast, (List.dropLast_append_getLast hvne).symm⟩
  have hblast : b ∈ v := by rw [hv]; simp
  have hb10 : b ≠ 10 := (benign_ne hparse b hblast).1
  -- the data and its last byte
  have hlen : (joinLines (ls.dropLast ++ [k ++ 59 :: v]) false).length =
      (joinLines ls.dropLast true).length + k.length + 1 + v.length := by
    rw [hJ]
    simp only [List.length_append, List.length_cons]
    omega
  have hlastbyte : (joinLines (ls.dropLast ++ [k ++ 59 :: v]) false).getD
      ((joinLines (ls.dropLast ++ [k ++ 59 :: v]) false).length - 1) 0 =
      b := by
    rw [hJ, hv]
    have hform : joinLines ls.dropLast true ++ (k ++ 59 :: (v' ++ [b])) =
        (joinLines ls.dropLast true ++ k ++ 59 :: v') ++ b :: [] := by simp
    have hidx : (joinLines ls.dropLast true ++ (k ++ 59 :: (v' ++ [b]))).length
        - 1 = (joinLines ls.dropLast true ++ k ++ 59 :: v').length := by
      simp only [List.length_append, List.length_cons, List.length_nil]
      omega
    rw [hidx, hform]
    exact getD_middle _ b []
  rw [if_pos (by rw [hlen]; omega)]
  rw [if_neg (by rw [hlastbyte]; exact hb10)]
  -- the trailing record is processed with the final offsets
  have hstation : sub (joinLines (ls.dropLast ++ [k ++ 59 :: v]) false)
      (joinLines ls.dropLast true).length
      ((joinLines ls.dropLast true).length + k.length) = k := by
    rw [hJ]
    have hform : joinLines ls.dropLast true ++ (k ++ 59 :: v) =
        joinLines ls.dropLast true ++ k ++ (59 :: v) := by simp
    rw [hform]
    exact sub_middle _ k (59 :: v)
  have htemp : sub (joinLines (ls.dropLast ++ [k ++ 59 :: v]) false)
      ((joinLines ls.dropLast true).length + k.length + 1)
      (joinLines (ls.dropLast ++ [k ++ 59 :: v]) false).length = v := by
    rw [hJ]
    have hform : joinLines ls.dropLast true ++ (k ++ 59 :: v) =
        (joinLines ls.dropLast true ++ k ++ [59]) ++ v ++ [] := by simp
    have hidx1 : (joinLines ls.dropLast true).length + k.length + 1 =
        (joinLines ls.dropLast true ++ k ++ [59]).length := by
      simp only [List.length_append, List.length_cons, List.length_nil]
    have hidx2 : (joinLines ls.dropLast true ++ (k ++ 59 :: v)).length =
        (joinLines ls.dropLast true ++ k ++ [59]).length + v.length := by
      simp only [List.length_append, List.length_cons, List.length_nil]
      omega
    rw [hidx2, hidx1, hform]
    exact sub_middle _ v []
  have hpr := @process_record_ok
    (joinLines (ls.dropLast ++ [k ++ 59 :: v]) false)
    (ls.dropLast.foldl insertLine [])
    (joinLines ls.dropLast true).length
    ((joinLines ls.dropLast true).length + k.length)
    ((joinLines ls.dropLast true).length + k.length + 1)
    (joinLines (ls.dropLast ++ [k ++ 59 :: v]) false).length q
    (by omega) (by rw [hlen]; omega) (by rw [hlen]; omega)
    (by omega) (by rw [hstation]; exact hutf) (by rw [htemp]; exact hparse)
  rw [hpr, hstation, List.foldl_append, List.foldl_cons, List.foldl_nil,
    insertLine_parts _ (fun b' hb' => (hk b' hb').1) hparse]

/-- A non-empty chunk of well-formed lines, with or without a trailing
newline, aggregates to the fold of its lines. -/
theorem read_slice_join (ls : List (List Nat)) (t : Bool) (hne : ls ≠ [])
    (hwf : ∀ l ∈ ls, WFline l) :
    read_stations_data_slice (joinLines ls t) =
      .ok (ls.foldl insertLine []) := by
  cases t with
  | true => exact read_slice_join_true ls hne hwf
  | false => exact read_slice_join_false ls hne hwf

/-- C6 counterexample: the chunk `"5\n"` is a single record with no
delimiter byte, yet the parallel record-parsing logic succeeds and emits
the key/value pair `("", 5.0)` built from the never-updated
`station_end`/`temp_start` offsets; the code has no notion of a
MalformedRecordError. -/
theorem c6_malformed_counterexample :
    read_stations_data_slice [53, 10] =
      .ok [([], { min_temp := 5, max_temp := 5, sum_temp := 5, n := 1 })] := by
  decide

/-- C6 (amended): a record span with no delimiter does not fail with any
error; if its bytes parse as a number `q`, the chunk aggregator emits the
entry with the empty key and value `q` (station span `[0, 0)` from the
stale offsets), because the scanner never validates that a delimiter was
seen. -/
theorem c6_no_delimiter_amended (v : List Nat) (q : Rat)
    (_hnd : 59 ∉ v) (hparse : parseF64 v = some q) :
    read_stations_data_slice (v ++ [10]) = .ok [([], singleStats q)] := by
  have hben : ∀ b ∈ v, b ≠ 10 ∧ b ≠ 59 := benign_ne hparse
  have hskip := scanLoop_skip_run v [] [10] 0 0 0 [] hben
  rw [List.nil_append, show ([] : List Nat).length = 0 from rfl] at hskip
  simp only [Nat.zero_add] at hskip
  have hidx : (v ++ [10]).getD v.length 0 = 10 := getD_middle v 10 []
  have hnl := @scanLoop_newline (v ++ [10]) v.length 0 0 0 []
    (by simp) hidx
  have hsubv : sub (v ++ [10]) 0 v.length = v := by
    have := sub_middle [] v [10]
    rw [List.nil_append, show ([] : List Nat).length = 0 from rfl] at this
    simpa using this
  have hpr := @process_record_ok (v ++ [10]) [] 0 0 0 v.length q
    (le_refl 0) (by simp) (Nat.zero_le _) (by simp)
    (by rw [show sub (v ++ [10]) 0 0 = [] from rfl]; rfl)
    (by rw [hsubv]; exact hparse)
  have hlast : (v ++ [10]).getD ((v ++ [10]).length - 1) 0 = 10 := by
    have h1 : (v ++ [10]).length - 1 = v.length := by simp
    rw [h1]
    exact getD_middle v 10 []
  unfold read_stations_data_slice
  rw [hskip, hnl, hpr]
  dsimp only
  rw [scanLoop_end (by simp)]
  dsimp only
  rw [if_pos (by simp), if_pos hlast]
  rfl

theorem c6_no_delimiter_amended_witness :
    59 ∉ [53] ∧ parseF64 [53] = some 5 ∧
      read_stations_data_slice [53, 10] = .ok [([], singleStats 5)] :=
  ⟨by decide, by decide,
    c6_no_delimiter_amended [53] 5 (by decide) (by decide)⟩

theorem getD_mem_of_lt {l : List Nat} {i : Nat} (h : i < l.length) :
    l.getD i 0 ∈ l := by
  rw [List.getD_eq_getElem _ _ h]
  exact List.getElem_mem h

theorem sub_all (data : List Nat) : sub data 0 data.length = data := by
  rw [sub]
  simp

/-- If every newline of the data sits at its last position, the splitter
produces a single chunk at every chunk size: the whole data, or the data
less its trailing newline. -/
theorem sliceLoop_single_record (S : Nat) (data : List Nat)
    (hpos : 0 < data.length)
    (h : ∀ i, i < data.length - 1 → data.getD i 0 ≠ 10) :
    sliceLoop S data 0 = [(0, data.length)] ∨
      (data.getD (data.length - 1) 0 = 10 ∧
        sliceLoop S data 0 = [(0, data.length - 1)]) := by
  rw [sliceLoop_eq, if_pos hpos]
  by_cases he : findSliceEnd data (0 + S) < data.length
  · have h10 := findSliceEnd_newline data (0 + S) he
    have heq : findSliceEnd data (0 + S) = data.length - 1 := by
      by_contra hne
      exact h _ (by omega) h10
    right
    refine ⟨by rw [← heq]; exact h10, ?_⟩
    rw [if_pos he, heq, sliceLoop_eq, if_neg (by omega)]
  · left
    rw [if_neg he, sliceLoop_eq, if_neg (by omega)]

theorem mapExcept_single (f : Nat × Nat → Except RunError AggMap)
    (r : Nat × Nat) (m : AggMap) (h : f r = .ok m) :
    mapExcept f [r] = .ok [m] := by
  have step : mapExcept f [r] =
      match f r with
      | .error e => .error e
      | .ok m' =>
        match mapExcept f ([] : List (Nat × Nat)) with
        | .error e => .error e
        | .ok ms => .ok (m' :: ms) := rfl
  rw [step, h]
  rfl

/-- The full parallel pipeline on a single well-formed record, with or
without a trailing newline, at every chunk size. -/
theorem parallelRun_single_record (S : Nat) (k v : List Nat) (q : Rat)
    (t : Bool) (hk : ∀ b ∈ k, b ≠ 59 ∧ b ≠ 10) (hutf : validUtf8 k = true)
    (hparse : parseF64 v = some q) :
    parallelRunWith S ((k ++ 59 :: v) ++ if t then [10] else []) =
      .ok [(k, singleStats q)] := by
  have hwf1 : ∀ l ∈ [k ++ 59 :: v], WFline l := by
    intro l hl
    rw [List.mem_singleton] at hl
    subst hl
    exact ⟨k, v, q, rfl, hk, hutf, hparse⟩
  have hread_f : read_stations_data_slice (k ++ 59 :: v) =
      .ok [(k, singleStats q)] := by
    have h := read_slice_join [k ++ 59 :: v] false (by simp) hwf1
    rw [show joinLines [k ++ 59 :: v] false = k ++ 59 :: v from by
      simp [joinLines]] at h
    rw [h, List.foldl_cons, List.foldl_nil,
      insertLine_parts [] (fun b hb => (hk b hb).1) hparse]
    rfl
  have hread_t : read_stations_data_slice ((k ++ 59 :: v) ++ [10]) =
      .ok [(k, singleStats q)] := by
    have h := read_slice_join [k ++ 59 :: v] true (by simp) hwf1
    rw [show joinLines [k ++ 59 :: v] true = (k ++ 59 :: v) ++ [10] from rfl]
      at h
    rw [h, List.foldl_cons, List.foldl_nil,
      insertLine_parts [] (fun b hb => (hk b hb).1) hparse]
    rfl
  have hrecne : ∀ b ∈ k ++ 59 :: v, b ≠ 10 := by
    intro b hb
    rw [List.mem_append, List.mem_cons] at hb
    rcases hb with hb | hb | hb
    · exact (hk b hb).2
    · subst hb
      omega
    · exact (benign_ne hparse b hb).1
  cases t with
  | false =>
    rw [show ((k ++ 59 :: v) ++ if (false : Bool) then [10] else []) =
      k ++ 59 :: v from by simp]
    have hpos : 0 < (k ++ 59 :: v).length := by simp
    have hnonl : ∀ i, i < (k ++ 59 :: v).length - 1 →
        (k ++ 59 :: v).getD i 0 ≠ 10 := by
      intro i hi
      exact hrecne _ (getD_mem_of_lt (by omega))
    rcases sliceLoop_single_record S _ hpos hnonl with hslice | ⟨h10, _⟩
    · unfold parallelRunWith
      rw [hslice, mapExcept_single _ _ [(k, singleStats q)]
        (by dsimp only; rw [sub_all]; exact hread_f)]
      rfl
    · exact absurd h10 (hrecne _ (getD_mem_of_lt (by omega)))
  | true =>
    rw [show ((k ++ 59 :: v) ++ if (true : Bool) then [10] else []) =
      (k ++ 59 :: v) ++ [10] from rfl]
    have hpos : 0 < ((k ++ 59 :: v) ++ [10]).length := by simp
    have hlen : ((k ++ 59 :: v) ++ [10]).length =
        (k ++ 59 :: v).length + 1 := by
      simp only [List.length_append, List.length_cons, List.length_nil]
    have hnonl : ∀ i, i < ((k ++ 59 :: v) ++ [10]).length - 1 →
        ((k ++ 59 :: v) ++ [10]).getD i 0 ≠ 10 := by
      intro i hi
      rw [hlen] at hi
      rw [List.getD_append _ _ _ _ (by omega)]
      exact hrecne _ (getD_mem_of_lt (by omega))
    rcases sliceLoop_single_record S _ hpos hnonl with hslice | ⟨_, hslice⟩
    · unfold parallelRunWith
      rw [hslice, mapExcept_single _ _ [(k, singleStats q)]
        (by dsimp only; rw [sub_all]; exact hread_t)]
      rfl
    · unfold parallelRunWith
      have h1 : ((k ++ 59 :: v) ++ [10]).length - 1 =
          (k ++ 59 :: v).length := by
        rw [hlen]
        omega
      have h2 : sub ((k ++ 59 :: v) ++ [10]) 0 (k ++ 59 :: v).length =
          k ++ 59 :: v := by
        rw [sub, List.drop_zero, Nat.sub_zero]
        exact List.take_left _ _
      rw [hslice, mapExcept_single _ _ [(k, singleStats q)]
        (by
          dsimp only
          rw [h1, h2]
          exact hread_f)]
      rfl

/-- **C7**: an empty input yields zero chunks and an empty final mapping (a
valid result, not an error); an input holding exactly one record, with or
without a trailing newline, yields the one-key mapping with `count = 1` and
`min = max =` the record's value. -/
theorem c7_boundary (k v : List Nat) (q : Rat) (t : Bool)
    (hk : ∀ b ∈ k, b ≠ 59 ∧ b ≠ 10) (hutf : validUtf8 k = true)
    (hparse : parseF64 v = some q) :
    slice [] = [] ∧ parallel_memory_mapped [] = .ok [] ∧
    parallel_memory_mapped ((k ++ 59 :: v) ++ if t then [10] else []) =
      .ok [(k, { min_temp := q, max_temp := q, sum_temp := q, n := 1 })] :=
  ⟨rfl, rfl, parallelRun_single_record SLICE_SIZE k v q t hk hutf hparse⟩

theorem c7_boundary_witness :
    (∀ b ∈ [97], b ≠ 59 ∧ b ≠ 10) ∧ validUtf8 [97] = true ∧
      parseF64 [49] = some 1 ∧
      slice [] = [] ∧ parallel_memory_mapped [] = .ok [] ∧
      parallel_memory_mapped
          (([97] ++ 59 :: [49]) ++ if true then [10] else []) =
        .ok [([97], { min_temp := 1, max_temp := 1, sum_temp := 1, n := 1 })] :=
  ⟨by decide, by decide, by decide,
    c7_boundary [97] [49] 1 true (by decide) (by decide) (by decide)⟩

theorem valsOf_append (ls1 ls2 : List (List Nat)) (k : List Nat) :
    valsOf (ls1 ++ ls2) k = valsOf ls1 k ++ valsOf ls2 k := by
  rw [valsOf, valsOf, valsOf, List.filterMap_append]

theorem addVal_eq_combineOpt (o : Option StationData) (q : Rat) :
    addVal o q = combineOpt o (some (singleStats q)) := by
  cases o with
  | none => rfl
  | some e =>
    simp only [addVal, combineVal, combineOpt, singleStats]
    rw [min_comm, max_comm]

theorem foldl_addVal_init (vs : List Rat) :
    ∀ o : Option StationData,
      vs.foldl addVal o = combineOpt o (statsOfVals vs) := by
  induction vs with
  | nil =>
    intro o
    rw [List.foldl_nil, statsOfVals, List.foldl_nil, combineOpt_none_right]
  | cons q rest ih =>
    intro o
    have hqcons : statsOfVals (q :: rest) =
        combineOpt (some (singleStats q)) (statsOfVals rest) := by
      rw [statsOfVals, List.foldl_cons, ih (addVal none q),
        addVal_eq_combineOpt, combineOpt_none_left]
    rw [List.foldl_cons, ih (addVal o q), addVal_eq_combineOpt,
      combineOpt_assoc, hqcons]

theorem statsOfVals_append (vs1 vs2 : List Rat) :
    statsOfVals (vs1 ++ vs2) =
      combineOpt (statsOfVals vs1) (statsOfVals vs2) := by
  rw [statsOfVals, List.foldl_append]
  exact foldl_addVal_init vs2 _

/-- Per-key value of a fold of well-formed record lines into a map. -/
theorem lookup_foldl_insertLine :
    ∀ (ls : List (List Nat)) (m : AggMap) (key : List Nat),
      (∀ l ∈ ls, WFline l) →
      lookupStation (ls.foldl insertLine m) key =
        combineOpt (lookupStation m key) (statsOfVals (valsOf ls key)) := by
  intro ls
  induction ls with
  | nil =>
    intro m key _
    rw [List.foldl_nil,
      show valsOf [] key = [] from rfl,
      show statsOfVals [] = none from rfl, combineOpt_none_right]
  | cons l rest ih =>
    intro m key hwf
    obtain ⟨k, v, q, hl, hk, _, hparse⟩ := hwf l (List.mem_cons_self _ _)
    subst hl
    have hk59 : ∀ b ∈ k, b ≠ 59 := fun b hb => (hk b hb).1
    rw [List.foldl_cons,
      insertLine_parts m hk59 hparse,
      ih _ key (fun l' hl' => hwf l' (List.mem_cons_of_mem _ hl')),
      lookup_entryUpdate]
    have hvals : valsOf ((k ++ 59 :: v) :: rest) key =
        (if k = key then ([q] : List Rat) else []) ++ valsOf rest key := by
      rw [valsOf, List.filterMap_cons]
      rw [lineKey_parts k v hk59, lineVal_parts k v hk59, hparse]
      by_cases hkk : k = key
      · rw [if_pos hkk, if_pos hkk]
        rfl
      · rw [if_neg hkk, if_neg hkk]
        rfl
    rw [hvals]
    by_cases hkk : k = key
    · subst hkk
      rw [if_pos rfl, if_pos rfl, statsOfVals_append,
        show statsOfVals [q] = some (singleStats q) from rfl,
        ← combineOpt_assoc]
      congr 1
      rw [← addVal_eq_combineOpt]
      cases lookupStation m k <;> rfl
    · rw [if_neg hkk, if_neg hkk, List.nil_append]

theorem nodupKeys_nil : NodupKeys [] := by
  rw [NodupKeys]
  exact List.nodup_nil

theorem nodupKeys_insertLine {m : AggMap} (l : List Nat) (h : NodupKeys m) :
    NodupKeys (insertLine m l) := by
  rw [insertLine]
  cases parseF64 (lineVal l) with
  | none => exact h
  | some q => exact nodupKeys_entryUpdate h

theorem nodupKeys_foldl_insertLine :
    ∀ (ls : List (List Nat)) (m : AggMap), NodupKeys m →
      NodupKeys (ls.foldl insertLine m) := by
  intro ls
  induction ls with
  | nil => intro m h; exact h
  | cons l rest ih =>
    intro m h
    rw [List.foldl_cons]
    exact ih _ (nodupKeys_insertLine l h)

theorem nodupKeys_foldl_mergeMaps :
    ∀ (ms : List AggMap) (acc : AggMap), NodupKeys acc →
      NodupKeys (ms.foldl mergeMaps acc) := by
  intro ms
  induction ms with
  | nil => intro acc h; exact h
  | cons m rest ih =>
    intro acc h
    rw [List.foldl_cons]
    exact ih _ (nodupKeys_mergeMaps h)

/-- Per-key value of the left fold of the per-chunk mappings. -/
theorem lookup_foldl_mergeMaps :
    ∀ (ms : List AggMap) (acc : AggMap) (key : List Nat),
      (∀ m ∈ ms, NodupKeys m) →
      lookupStation (ms.foldl mergeMaps acc) key =
        ms.foldl (fun o m => combineOpt o (lookupStation m key))
          (lookupStation acc key) := by
  intro ms
  induction ms with
  | nil => intro acc key _; rfl
  | cons m rest ih =>
    intro acc key hnd
    rw [List.foldl_cons, List.foldl_cons,
      ih _ key (fun m' hm' => hnd m' (List.mem_cons_of_mem _ hm')),
      lookup_mergeMaps m (hnd m (List.mem_cons_self _ _))]

theorem foldl_combineOpt_init (g : AggMap → Option StationData) :
    ∀ (ms : List AggMap) (a b : Option StationData),
      ms.foldl (fun o m => combineOpt o (g m)) (combineOpt a b) =
        combineOpt a (ms.foldl (fun o m => combineOpt o (g m)) b) := by
  intro ms
  induction ms with
  | nil => intro a b; rfl
  | cons m rest ih =>
    intro a b
    rw [List.foldl_cons, List.foldl_cons, combineOpt_assoc, ih]

theorem findSliceEnd_oob (data : List Nat) (e : Nat)
    (h : data.length ≤ e) : findSliceEnd data e = e := by
  rw [findSliceEnd_eq, if_neg (by omega)]

/-- The inner boundary scan commutes with prepending bytes. -/
theorem findSliceEnd_shift (pre rest : List Nat) :
    ∀ e, findSliceEnd (pre ++ rest) (pre.length + e) =
      pre.length + findSliceEnd rest e := by
  suffices H : ∀ fuel e, rest.length - e ≤ fuel →
      findSliceEnd (pre ++ rest) (pre.length + e) =
        pre.length + findSliceEnd rest e from
    fun e => H (rest.length - e) e (le_refl _)
  intro fuel
  induction fuel with
  | zero =>
    intro e h
    rw [findSliceEnd_oob rest e (by omega),
      findSliceEnd_oob (pre ++ rest) _
        (by simp only [List.length_append]; omega)]
  | succ f ih =>
    intro e h
    by_cases he : e < rest.length
    · have hlen : pre.length + e < (pre ++ rest).length := by
        simp only [List.length_append]
        omega
      have hgetd : (pre ++ rest).getD (pre.length + e) 0 = rest.getD e 0 := by
        rw [List.getD_append_right _ _ _ _ (Nat.le_add_right _ _),
          Nat.add_sub_cancel_left]
      rw [findSliceEnd_eq, if_pos hlen, hgetd,
        findSliceEnd_eq rest e, if_pos he]
      by_cases hb : rest.getD e 0 = 10
      · rw [if_pos hb, if_pos hb]
      · rw [if_neg hb, if_neg hb,
          show pre.length + e + 1 = pre.length + (e + 1) from by omega,
          ih (e + 1) (by omega)]
    · rw [findSliceEnd_oob rest e (by omega),
        findSliceEnd_oob (pre ++ rest) _
          (by simp only [List.length_append]; omega)]

/-- The Chunk Splitter commutes with prepending bytes: starting past a
prefix, its ranges are the ranges of the suffix shifted by the prefix
length. -/
theorem sliceLoop_shift (S : Nat) (pre rest : List Nat) :
    ∀ s, sliceLoop S (pre ++ rest) (pre.length + s) =
      (sliceLoop S rest s).map
        (fun r => (pre.length + r.1, pre.length + r.2)) := by
  suffices H : ∀ fuel s, rest.length - s ≤ fuel →
      sliceLoop S (pre ++ rest) (pre.length + s) =
        (sliceLoop S rest s).map
          (fun r => (pre.length + r.1, pre.length + r.2)) from
    fun s => H (rest.length - s) s (le_refl _)
  intro fuel
  induction fuel with
  | zero =>
    intro s h
    rw [sliceLoop_eq, if_neg (by simp only [List.length_append]; omega),
      sliceLoop_eq, if_neg (by omega), List.map_nil]
  | succ f ih =>
    intro s h
    by_cases hs : s < rest.length
    · have hs' : pre.length + s < (pre ++ rest).length := by
        simp only [List.length_append]
        omega
      have hfse : findSliceEnd (pre ++ rest) (pre.length + s + S) =
          pre.length + findSliceEnd rest (s + S) := by
        rw [show pre.length + s + S = pre.length + (s + S) from by omega]
        exact findSliceEnd_shift pre rest (s + S)
      have hfe := le_findSliceEnd rest (s + S)
      rw [sliceLoop_eq, if_pos hs', hfse, sliceLoop_eq S rest s, if_pos hs]
      by_cases he : findSliceEnd rest (s + S) < rest.length
      · rw [if_pos (by simp only [List.length_append]; omega), if_pos he,
          List.map_cons,
          show pre.length + findSliceEnd rest (s + S) + 1 =
            pre.length + (findSliceEnd rest (s + S) + 1) from by omega,
          ih (findSliceEnd rest (s + S) + 1) (by omega)]
      · rw [if_neg (by simp only [List.length_append]; omega), if_neg he,
          List.map_cons, List.length_append,
          show pre.length + findSliceEnd rest (s + S) + 1 =
            pre.length + (findSliceEnd rest (s + S) + 1) from by omega,
          ih (findSliceEnd rest (s + S) + 1) (by omega)]
    · rw [sliceLoop_eq, if_neg (by simp only [List.length_append]; omega),
        sliceLoop_eq S rest s, if_neg (by omega), List.map_nil]

theorem sub_shift (pre rest : List Nat) (a b : Nat) :
    sub (pre ++ rest) (pre.length + a) (pre.length + b) = sub rest a b := by
  rw [sub, sub, List.drop_append, Nat.add_sub_add_left]

theorem mapExcept_cons (f : Nat × Nat → Except RunError AggMap)
    (r : Nat × Nat) (rs : List (Nat × Nat)) :
    mapExcept f (r :: rs) =
      match f r with
      | .error e => .error e
      | .ok m =>
        match mapExcept f rs with
        | .error e => .error e
        | .ok ms => .ok (m :: ms) := rfl

/-- Aggregating the shifted ranges over the extended data is aggregating the
original ranges over the suffix. -/
theorem mapExcept_shift (pre rest : List Nat) :
    ∀ rs : List (Nat × Nat),
      mapExcept
          (fun r => read_stations_data_slice (sub (pre ++ rest) r.1 r.2))
          (rs.map (fun r => (pre.length + r.1, pre.length + r.2))) =
        mapExcept (fun r => read_stations_data_slice (sub rest r.1 r.2))
          rs := by
  intro rs
  induction rs with
  | nil => rfl
  | cons r rs ih =>
    rw [List.map_cons, mapExcept_cons, mapExcept_cons, ih]
    dsimp only
    rw [sub_shift pre rest r.1 r.2]

theorem joinLines_true_eq : ∀ (ls : List (List Nat)), ls ≠ [] →
    joinLines ls true = joinLines ls false ++ [10] := by
  intro ls
  induction ls with
  | nil => intro h; exact absurd rfl h
  | cons l rest ih =>
    intro _
    cases hr : rest with
    | nil =>
      subst hr
      show l ++ [10] = (l ++ []) ++ [10]
      rw [List.append_nil]
    | cons r2 rrest =>
      have hrne : rest ≠ [] := by rw [hr]; simp
      rw [← hr, joinLines_cons_ne l rest true hrne,
        joinLines_cons_ne l rest false hrne, ih hrne]
      simp

/-- A newline byte inside the join of newline-free lines splits the line
list: everything up to and including that newline is the join of a
non-empty prefix of the lines, all of them terminated. -/
theorem newline_split :
    ∀ (ls : List (List Nat)) (t : Bool) (c : Nat),
      (∀ l ∈ ls, ∀ b ∈ l, b ≠ 10) →
      c < (joinLines ls t).length →
      (joinLines ls t).getD c 0 = 10 →
      ∃ ls1 ls2, ls = ls1 ++ ls2 ∧ ls1 ≠ [] ∧
        joinLines ls t = joinLines ls1 true ++ joinLines ls2 t ∧
        (joinLines ls1 true).length = c + 1 := by
  intro ls
  induction ls with
  | nil =>
    intro t c _ hc _
    rw [show joinLines [] t = [] from rfl] at hc
    simp at hc
  | cons l rest ih =>
    intro t c hno hc h10
    cases hr : rest with
    | nil =>
      subst hr
      cases t with
      | false =>
        exfalso
        have hdata : joinLines [l] false = l := by
          show l ++ [] = l
          exact List.append_nil l
        rw [hdata] at hc h10
        exact hno l (by simp) _ (getD_mem_of_lt hc) h10
      | true =>
        have hdata : joinLines [l] true = l ++ [10] := rfl
        rw [hdata] at hc h10
        have hlen : (l ++ [10]).length = l.length + 1 := by simp
        have hceq : c = l.length := by
          by_contra hne
          have hcl : c < l.length := by rw [hlen] at hc; omega
          rw [List.getD_append _ _ _ _ hcl] at h10
          exact hno l (by simp) _ (getD_mem_of_lt hcl) h10
        refine ⟨[l], [], by simp, by simp, ?_, ?_⟩
        · rw [show joinLines [] true = [] from rfl, List.append_nil]
        · show (l ++ [10]).length = c + 1
          rw [hceq]
          exact hlen
    | cons r2 rrest =>
      have hrne : rest ≠ [] := by rw [hr]; simp
      rw [← hr]
      rw [joinLines_cons_ne l rest t hrne] at hc h10 ⊢
      by_cases hcl : c < l.length
      · exfalso
        rw [List.getD_append _ _ _ _ hcl] at h10
        exact hno l (by simp) _ (getD_mem_of_lt hcl) h10
      · by_cases hceq : c = l.length
        · refine ⟨[l], rest, by simp, by simp, ?_, ?_⟩
          · show l ++ 10 :: joinLines rest t = (l ++ [10]) ++ joinLines rest t
            simp
          · show (l ++ [10]).length = c + 1
            rw [hceq]
            simp
        · have hcgt : l.length < c := by omega
          have hc2 := hc
          simp only [List.length_append, List.length_cons] at hc2
          have hc' : c - (l.length + 1) < (joinLines rest t).length := by
            omega
          have h10' : (joinLines rest t).getD (c - (l.length + 1)) 0 = 10 := by
            have hform : l ++ 10 :: joinLines rest t =
                (l ++ [10]) ++ joinLines rest t := by simp
            rw [hform, List.getD_append_right _ _ _ _
              (by simp only [List.length_append, List.length_cons,
                List.length_nil]; omega)] at h10
            have hidx : c - (l ++ [10]).length = c - (l.length + 1) := by
              simp only [List.length_append, List.length_cons,
                List.length_nil]
            rw [hidx] at h10
            exact h10
          obtain ⟨ls1', ls2', hsplit, hne', hjoin, hlen'⟩ :=
            ih t (c - (l.length + 1))
              (fun l' hl' => hno l' (List.mem_cons_of_mem _ hl')) hc' h10'
          refine ⟨l :: ls1', ls2',
            by rw [List.cons_append, ← hsplit], by simp, ?_, ?_⟩
          · rw [joinLines_cons_ne l ls1' true hne', hjoin]
            simp
          · rw [joinLines_cons_ne l ls1' true hne']
            simp only [List.length_append, List.length_cons]
            omega

theorem process_record_nodup {data : List Nat} {m : AggMap}
    {ss se ts te : Nat} {m' : AggMap}
    (hok : process_record data m ss se ts te = .ok m') (h : NodupKeys m) :
    NodupKeys m' := by
  unfold process_record at hok
  split at hok
  · split at hok
    · split at hok
      · split at hok
        · split at hok
          · rw [Except.ok.injEq] at hok
            subst hok
            exact nodupKeys_entryUpdate h
          · exact absurd hok (by simp)
        · exact absurd hok (by simp)
      · exact absurd hok (by simp)
    · exact absurd hok (by simp)
  · exact absurd hok (by simp)

theorem scanLoopGo_nodup (data : List Nat) :
    ∀ (fuel i ss se ts : Nat) (m : AggMap)
      (r : AggMap × Nat × Nat × Nat),
      scanLoopGo data fuel i ss se ts m = .ok r →
      NodupKeys m → NodupKeys r.1 := by
  intro fuel
  induction fuel with
  | zero =>
    intro i ss se ts m r hok hm
    rw [scanLoopGo, Except.ok.injEq] at hok
    rw [← hok]
    exact hm
  | succ f ih =>
    intro i ss se ts m r hok hm
    rw [scanLoopGo] at hok
    split at hok
    · split at hok
      · split at hok
        · exact absurd hok (by simp)
        · rename_i m' hpr
          exact ih _ _ _ _ _ _ hok (process_record_nodup hpr hm)
      · split at hok
        · exact ih _ _ _ _ _ _ hok hm
        · exact ih _ _ _ _ _ _ hok hm
    · rw [Except.ok.injEq] at hok
      rw [← hok]
      exact hm

/-- Every mapping a chunk aggregation produces satisfies the `HashMap`
distinct-keys invariant. -/
theorem read_slice_nodup {data : List Nat} {m' : AggMap}
    (hok : read_stations_data_slice data = .ok m') : NodupKeys m' := by
  unfold read_stations_data_slice at hok
  split at hok
  · exact absurd hok (by simp)
  · rename_i m ss se ts heq
    have hm : NodupKeys m :=
      scanLoopGo_nodup data _ _ _ _ _ _ _ heq nodupKeys_nil
    split at hok
    · split at hok
      · rw [Except.ok.injEq] at hok
        rw [← hok]
        exact hm
      · exact process_record_nodup hok hm
    · exact absurd hok (by simp)

theorem joinLines_cons_length (l : List Nat) (ls : List (List Nat))
    (t : Bool) : l.length ≤ (joinLines (l :: ls) t).length := by
  cases ls with
  | nil =>
    cases t <;> simp [joinLines]
  | cons l2 rest =>
    rw [joinLines_cons_ne _ _ _ (by simp)]
    simp

theorem joinLines_length_pos (ls : List (List Nat)) (t : Bool)
    (hne : ls ≠ []) (hl : ∀ l ∈ ls, l ≠ []) :
    0 < (joinLines ls t).length := by
  cases ls with
  | nil => exact absurd rfl hne
  | cons l rest =>
    have h0 : 0 < l.length :=
      List.length_pos.mpr (hl l (List.mem_cons_self _ _))
    have hle := joinLines_cons_length l rest t
    omega

/-- Per-key correctness of the parallel pipeline on well-formed inputs, at
every chunk size: the run succeeds, the result has distinct keys, and every
key's statistics are the canonical fold of that key's observed values. -/
theorem parallelRun_wf (S : Nat) :
    ∀ (ls : List (List Nat)) (t : Bool),
      (∀ l ∈ ls, WFline l) →
      ∃ m, parallelRunWith S (joinLines ls t) = .ok m ∧ NodupKeys m ∧
        ∀ key, lookupStation m key = statsOfVals (valsOf ls key) := by
  suffices H : ∀ n (ls : List (List Nat)) (t : Bool), ls.length ≤ n →
      (∀ l ∈ ls, WFline l) →
      ∃ m, parallelRunWith S (joinLines ls t) = .ok m ∧ NodupKeys m ∧
        ∀ key, lookupStation m key = statsOfVals (valsOf ls key) from
    fun ls t hwf => H ls.length ls t (le_refl _) hwf
  intro n
  induction n with
  | zero =>
    intro ls t hlen _
    cases ls with
    | nil => exact ⟨[], rfl, nodupKeys_nil, fun key => rfl⟩
    | cons l rest => simp at hlen
  | succ n ih =>
    intro ls t hlen hwf
    by_cases hne : ls = []
    · subst hne
      exact ⟨[], rfl, nodupKeys_nil, fun key => rfl⟩
    have hno : ∀ l ∈ ls, ∀ b ∈ l, b ≠ 10 := by
      intro l hl b hb
      obtain ⟨k, v, q, hlkv, hk, _, hparse⟩ := hwf l hl
      subst hlkv
      rw [List.mem_append, List.mem_cons] at hb
      rcases hb with hb | hb | hb
      · exact (hk b hb).2
      · subst hb; omega
      · exact (benign_ne hparse b hb).1
    have hlne : ∀ l ∈ ls, l ≠ [] := by
      intro l hl
      obtain ⟨k, v, q, hlkv, _, _, _⟩ := hwf l hl
      subst hlkv
      simp
    have hLpos := joinLines_length_pos ls t hne hlne
    obtain ⟨c, hc⟩ : ∃ c, findSliceEnd (joinLines ls t) (0 + S) = c :=
      ⟨_, rfl⟩
    have hsl := sliceLoop_eq S (joinLines ls t) 0
    rw [if_pos hLpos, hc] at hsl
    by_cases he : c < (joinLines ls t).length
    · -- the first range stops short of a newline; split the lines there
      rw [if_pos he] at hsl
      have h10 : (joinLines ls t).getD c 0 = 10 := by
        rw [← hc]
        exact findSliceEnd_newline _ _ (by rw [hc]; exact he)
      obtain ⟨ls1, ls2, hsplit, hne1, hjoin, hlen1⟩ :=
        newline_split ls t c hno he h10
      have hwf1 : ∀ l ∈ ls1, WFline l := fun l hl =>
        hwf l (by rw [hsplit]; exact List.mem_append_left _ hl)
      have hwf2 : ∀ l ∈ ls2, WFline l := fun l hl =>
        hwf l (by rw [hsplit]; exact List.mem_append_right _ hl)
      have hJF : joinLines ls1 true = joinLines ls1 false ++ [10] :=
        joinLines_true_eq ls1 hne1
      have hcJF : (joinLines ls1 false).length = c := by
        rw [hJF] at hlen1
        simp only [List.length_append, List.length_cons, List.length_nil]
          at hlen1
        omega
      have hdata2 : joinLines ls t =
          joinLines ls1 false ++ (10 :: joinLines ls2 t) := by
        rw [hjoin, hJF]
        simp
      have hsub1 : sub (joinLines ls t) 0 c = joinLines ls1 false := by
        rw [sub, List.drop_zero, Nat.sub_zero, hdata2, ← hcJF]
        exact List.take_left _ _
      have hread1 : read_stations_data_slice (sub (joinLines ls t) 0 c) =
          .ok (ls1.foldl insertLine []) := by
        rw [hsub1]
        exact read_slice_join ls1 false hne1 hwf1
      have hshift : sliceLoop S (joinLines ls t) (c + 1) =
          (sliceLoop S (joinLines ls2 t) 0).map
            (fun r => ((joinLines ls1 true).length + r.1,
              (joinLines ls1 true).length + r.2)) := by
        have hc1 : c + 1 = (joinLines ls1 true).length + 0 := by omega
        rw [hjoin, hc1]
        exact sliceLoop_shift S _ _ 0
      have hlen2 : ls2.length ≤ n := by
        have hl1 := List.length_pos.mpr hne1
        have hlsum := congrArg List.length hsplit
        rw [List.length_append] at hlsum
        omega
      obtain ⟨m2, hm2run, hm2nd, hm2look⟩ := ih ls2 t hlen2 hwf2
      unfold parallelRunWith at hm2run
      cases hms2 : mapExcept
          (fun r => read_stations_data_slice (sub (joinLines ls2 t) r.1 r.2))
          (sliceLoop S (joinLines ls2 t) 0) with
      | error e =>
        rw [hms2] at hm2run
        exact absurd hm2run (by simp)
      | ok ms2 =>
        rw [hms2] at hm2run
        rw [Except.ok.injEq] at hm2run
        have hmap2 : mapExcept
            (fun r => read_stations_data_slice (sub (joinLines ls t) r.1 r.2))
            (sliceLoop S (joinLines ls t) (c + 1)) = .ok ms2 := by
          rw [hshift, hjoin, mapExcept_shift]
          exact hms2
        have hmapAll : mapExcept
            (fun r => read_stations_data_slice (sub (joinLines ls t) r.1 r.2))
            (sliceLoop S (joinLines ls t) 0) =
            .ok (ls1.foldl insertLine [] :: ms2) := by
          rw [hsl, mapExcept_cons]
          dsimp only
          rw [hread1, hmap2]
        refine ⟨(ls1.foldl insertLine [] :: ms2).foldl mergeMaps [],
          ?_, ?_, ?_⟩
        · unfold parallelRunWith
          rw [hmapAll]
        · exact nodupKeys_foldl_mergeMaps _ [] nodupKeys_nil
        · intro key
          have hndall : ∀ mm ∈ ls1.foldl insertLine [] :: ms2,
              NodupKeys mm := by
            intro mm hmm
            rw [List.mem_cons] at hmm
            rcases hmm with rfl | hmm
            · exact nodupKeys_foldl_insertLine ls1 [] nodupKeys_nil
            · obtain ⟨r, _, hr⟩ := mapExcept_ok_mem hms2 mm hmm
              exact read_slice_nodup hr
          rw [lookup_foldl_mergeMaps _ [] key hndall,
            show lookupStation [] key = none from rfl, List.foldl_cons,
            combineOpt_none_left,
            show (lookupStation (ls1.foldl insertLine []) key) =
                combineOpt (lookupStation (ls1.foldl insertLine []) key)
                  none from (combineOpt_none_right _).symm,
            foldl_combineOpt_init (fun m => lookupStation m key) ms2 _ none]
          rw [show ms2.foldl
                (fun o m => combineOpt o (lookupStation m key)) none =
              lookupStation m2 key from by
            rw [← hm2run,
              lookup_foldl_mergeMaps ms2 [] key (fun mm hmm => by
                obtain ⟨r, _, hr⟩ := mapExcept_ok_mem hms2 mm hmm
                exact read_slice_nodup hr)]
            rfl]
          rw [lookup_foldl_insertLine ls1 [] key hwf1,
            show lookupStation [] key = none from rfl, combineOpt_none_left,
            hm2look key, hsplit, valsOf_append, statsOfVals_append]
    · -- the first range runs to the end of the data: one single chunk
      rw [if_neg he] at hsl
      rw [sliceLoop_eq S (joinLines ls t) (c + 1), if_neg (by omega)] at hsl
      have hread := read_slice_join ls t hne hwf
      refine ⟨mergeMaps [] (ls.foldl insertLine []), ?_, ?_, ?_⟩
      · unfold parallelRunWith
        rw [hsl, mapExcept_single _ _ (ls.foldl insertLine [])
          (by dsimp only; rw [sub_all]; exact hread)]
        rfl
      · exact nodupKeys_mergeMaps nodupKeys_nil
      · intro key
        rw [lookup_mergeMaps _ (nodupKeys_foldl_insertLine ls [] nodupKeys_nil)
            [] key,
          show lookupStation [] key = none from rfl, combineOpt_none_left,
          lookup_foldl_insertLine ls [] key hwf,
          show lookupStation [] key = none from rfl, combineOpt_none_left]

theorem splitOnByte_no_sep (b : Nat) :
    ∀ (l : List Nat), (∀ x ∈ l, x ≠ b) → splitOnByte b l = [l] := by
  intro l
  induction l with
  | nil => intro _; rfl
  | cons c rest ih =>
    intro h
    rw [splitOnByte, if_neg (h c (List.mem_cons_self _ _)),
      ih (fun x hx => h x (List.mem_cons_of_mem _ hx))]

theorem splitOnByte_sep_cons (b : Nat) :
    ∀ (l rest' : List Nat), (∀ x ∈ l, x ≠ b) →
      splitOnByte b (l ++ b :: rest') = l :: splitOnByte b rest' := by
  intro l
  induction l with
  | nil =>
    intro rest' _
    rw [List.nil_append, splitOnByte, if_pos rfl]
  | cons c cl ih =>
    intro rest' h
    rw [List.cons_append, splitOnByte,
      if_neg (h c (List.mem_cons_self _ _)),
      ih rest' (fun x hx => h x (List.mem_cons_of_mem _ hx))]

theorem split_joinLines_true :
    ∀ (ls : List (List Nat)), (∀ l ∈ ls, ∀ x ∈ l, x ≠ 10) →
      splitOnByte 10 (joinLines ls true) = ls ++ [[]] := by
  intro ls
  induction ls with
  | nil => intro _; rfl
  | cons l rest ih =>
    intro h10
    cases hr : rest with
    | nil =>
      subst hr
      show splitOnByte 10 (l ++ 10 :: []) = [l] ++ [[]]
      rw [splitOnByte_sep_cons 10 l [] (h10 l (List.mem_cons_self _ _))]
      rfl
    | cons r2 rrest =>
      have hrne : rest ≠ [] := by rw [hr]; simp
      rw [← hr, joinLines_cons_ne l rest true hrne,
        splitOnByte_sep_cons 10 l _ (h10 l (List.mem_cons_self _ _)),
        ih (fun l' hl' => h10 l' (List.mem_cons_of_mem _ hl'))]
      rfl

theorem split_joinLines_false :
    ∀ (ls : List (List Nat)), ls ≠ [] →
      (∀ l ∈ ls, ∀ x ∈ l, x ≠ 10) →
      splitOnByte 10 (joinLines ls false) = ls := by
  intro ls
  induction ls with
  | nil => intro h; exact absurd rfl h
  | cons l rest ih =>
    intro _ h10
    cases hr : rest with
    | nil =>
      subst hr
      show splitOnByte 10 (l ++ []) = [l]
      rw [List.append_nil]
      exact splitOnByte_no_sep 10 l (h10 l (List.mem_cons_self _ _))
    | cons r2 rrest =>
      have hrne : rest ≠ [] := by rw [hr]; simp
      rw [← hr, joinLines_cons_ne l rest false hrne,
        splitOnByte_sep_cons 10 l _ (h10 l (List.mem_cons_self _ _)),
        ih hrne (fun l' hl' => h10 l' (List.mem_cons_of_mem _ hl'))]

theorem stripCR_id (l : List Nat) (h : l.getLast? ≠ some 13) :
    stripCR l = l := by
  unfold stripCR
  split
  · rename_i hg
    exact absurd hg h
  · rfl

theorem map_id_of (f : List Nat → List Nat) :
    ∀ (ls : List (List Nat)), (∀ x ∈ ls, f x = x) → ls.map f = ls := by
  intro ls
  induction ls with
  | nil => intro _; rfl
  | cons l rest ih =>
    intro h
    rw [List.map_cons, h l (List.mem_cons_self _ _),
      ih (fun x hx => h x (List.mem_cons_of_mem _ hx))]

/-- `BufReader::lines()` recovers exactly the lines of a joined input
(newline-free, non-empty lines not ending in a carriage return). -/
theorem bufLines_joinLines (ls : List (List Nat)) (t : Bool) (hne : ls ≠ [])
    (h10 : ∀ l ∈ ls, ∀ x ∈ l, x ≠ 10) (hnil : ∀ l ∈ ls, l ≠ [])
    (h13 : ∀ l ∈ ls, l.getLast? ≠ some 13) :
    bufLines (joinLines ls t) = ls := by
  have hLpos := joinLines_length_pos ls t hne hnil
  have hdne : joinLines ls t ≠ [] := by
    intro h
    rw [h] at hLpos
    simp at hLpos
  unfold bufLines
  rw [if_neg hdne]
  dsimp only
  have hmap : ls.map stripCR = ls :=
    map_id_of stripCR ls (fun l hl => stripCR_id l (h13 l hl))
  cases t with
  | true =>
    rw [split_joinLines_true ls h10, List.getLast?_concat, if_pos rfl,
      List.dropLast_concat, hmap]
  | false =>
    rw [split_joinLines_false ls hne h10]
    rw [if_neg (by
      rw [List.getLast?_eq_getLast ls hne]
      intro hcon
      rw [Option.some.injEq] at hcon
      exact hnil _ (List.getLast_mem hne) hcon), hmap]

theorem WFline_ne_nil {l : List Nat} (h : WFline l) : l ≠ [] := by
  obtain ⟨k, v, q, hl, _, _, _⟩ := h
  subst hl
  simp

theorem WFline_no_nl {l : List Nat} (h : WFline l) : ∀ b ∈ l, b ≠ 10 := by
  obtain ⟨k, v, q, hl, hk, _, hparse⟩ := h
  subst hl
  intro b hb
  rw [List.mem_append, List.mem_cons] at hb
  rcases hb with hb | hb | hb
  · exact (hk b hb).2
  · subst hb; omega
  · exact (benign_ne hparse b hb).1

theorem WFline_getLast {l : List Nat} (h : WFline l) :
    l.getLast? ≠ some 13 := by
  obtain ⟨k, v, q, hl, hk, _, hparse⟩ := h
  subst hl
  have hvne : v ≠ [] := parseF64_ne_nil hparse
  obtain ⟨b, v', hv⟩ : ∃ b v', v = v' ++ [b] :=
    ⟨v.getLast hvne, v.dropLast, (List.dropLast_append_getLast hvne).symm⟩
  have hb13 : b ≠ 13 := by
    have := parseF64_bytes hparse b (by rw [hv]; simp)
    exact this.2.2.2
  rw [hv, show k ++ 59 :: (v' ++ [b]) = (k ++ 59 :: v') ++ [b] from by simp,
    List.getLast?_concat]
  intro hcon
  rw [Option.some.injEq] at hcon
  exact hb13 hcon

theorem WFline_validUtf8 {l : List Nat} (h : WFline l) :
    validUtf8 l = true := by
  obtain ⟨k, v, q, hl, _, hutf, hparse⟩ := h
  subst hl
  refine validUtf8_append hutf ?_
  rw [validUtf8_ascii_cons v (by omega)]
  exact validUtf8_of_ascii (fun b hb => (parseF64_bytes hparse b hb).1)

theorem naive_foldlM :
    ∀ (ls : List (List Nat)) (m : AggMap), (∀ l ∈ ls, WFline l) →
      List.foldlM
        (fun m l =>
          if validUtf8 l then
            match splitOnByte 59 l with
            | [station, tempStr] =>
              match parseF64 tempStr with
              | some temp =>
                Except.ok (entryUpdate m station
                  (fun e =>
                    { max_temp := max temp e.max_temp
                      min_temp := min temp e.min_temp
                      sum_temp := e.sum_temp + temp
                      n := e.n + 1 })
                  { min_temp := temp, max_temp := temp, sum_temp := temp,
                    n := 1 })
              | none => Except.error RunError.panicParse
            | _ => Except.ok m
          else Except.ok m)
        m ls = .ok (ls.foldl insertLine m) := by
  intro ls
  induction ls with
  | nil => intro m _; rfl
  | cons l rest ih =>
    intro m hwf
    obtain ⟨k, v, q, hl, hk, hutf, hparse⟩ := hwf l (List.mem_cons_self _ _)
    have hvu : validUtf8 l = true := WFline_validUtf8 (hwf l (List.mem_cons_self _ _))
    have hsplit : splitOnByte 59 l = [k, v] := by
      rw [hl, splitOnByte_sep_cons 59 k v (fun x hx => (hk x hx).1),
        splitOnByte_no_sep 59 v
          (fun x hx => (benign_ne hparse x hx).2)]
    rw [List.foldlM_cons, if_pos hvu, hsplit]
    dsimp only
    rw [hparse]
    show List.foldlM _ (entryUpdate m k _ _) rest = _
    rw [ih _ (fun l' hl' => hwf l' (List.mem_cons_of_mem _ hl')),
      List.foldl_cons]
    rw [show insertLine m l =
      entryUpdate m k (fun e => combineVal e q) (singleStats q) from by
        rw [hl]
        exact insertLine_parts m (fun x hx => (hk x hx).1) hparse]
    rfl

/-- The naive baseline on a well-formed input folds exactly its lines. -/
theorem naive_wf (ls : List (List Nat)) (t : Bool)
    (hwf : ∀ l ∈ ls, WFline l) :
    read_stations_data (joinLines ls t) = .ok (ls.foldl insertLine []) := by
  by_cases hne : ls = []
  · subst hne
    rfl
  · unfold read_stations_data
    rw [bufLines_joinLines ls t hne
      (fun l hl => WFline_no_nl (hwf l hl))
      (fun l hl => WFline_ne_nil (hwf l hl))
      (fun l hl => WFline_getLast (hwf l hl))]
    exact naive_foldlM ls [] hwf

/-- C1 counterexample: on the input `"5\n"` (one line, no delimiter) the
naive path silently skips the line and yields the empty mapping, while the
parallel path yields an entry with key `""` and value `5`: the key sets of
the two paths differ, so they do not agree on every input the naive path
accepts. -/
theorem c1_refinement_counterexample :
    read_stations_data [53, 10] = .ok [] ∧
      parallel_memory_mapped [53, 10] =
        .ok [([],
          { min_temp := 5, max_temp := 5, sum_temp := 5, n := 1 })] := by
  constructor
  · decide
  · decide

/-- C1 (amended): on inputs all of whose lines are well-formed records
(`key;value`, delimiter-free and newline-free valid-UTF-8 key, parseable
value), both paths succeed and produce per-key identical statistics — the
sums agree exactly because temperatures are modelled as rationals; over
`f64` only the summation order differs, which is the tolerance the claim
allows. -/
theorem c1_refinement_amended (ls : List (List Nat)) (t : Bool)
    (hwf : ∀ l ∈ ls, WFline l) :
    ∃ mp mn, parallel_memory_mapped (joinLines ls t) = .ok mp ∧
      read_stations_data (joinLines ls t) = .ok mn ∧
      ∀ key, lookupStation mp key = lookupStation mn key := by
  obtain ⟨mp, hrun, _, hlook⟩ := parallelRun_wf SLICE_SIZE ls t hwf
  refine ⟨mp, ls.foldl insertLine [], hrun, naive_wf ls t hwf, ?_⟩
  intro key
  rw [hlook key, lookup_foldl_insertLine ls [] key hwf,
    show lookupStation [] key = none from rfl, combineOpt_none_left]

theorem c1_refinement_amended_witness :
    (∀ l ∈ [[97, 59, 49]], WFline l) ∧
      ∃ mp mn, parallel_memory_mapped (joinLines [[97, 59, 49]] true) =
          .ok mp ∧
        read_stations_data (joinLines [[97, 59, 49]] true) = .ok mn ∧
        ∀ key, lookupStation mp key = lookupStation mn key := by
  have hwf : ∀ l ∈ [[97, 59, 49]], WFline l := by
    intro l hl
    rw [List.mem_singleton] at hl
    subst hl
    exact ⟨[97], [49], 1, rfl, by decide, by decide, by decide⟩
  exact ⟨hwf, c1_refinement_amended [[97, 59, 49]] true hwf⟩

/-- C9 counterexample: on the fixed input `"k;1\n5\n"` the pipeline with
chunk size 1 succeeds while the pipeline with chunk size 4 panics on an
inverted slice range (the scanner's stale `temp_start` exceeds the chunk
end), so the final result is not independent of the chunk size. -/
theorem c9_determinism_counterexample :
    parallelRunWith 1 [107, 59, 49, 10, 53, 10] =
      .ok [([107], { min_temp := 1, max_temp := 1, sum_temp := 1, n := 1 }),
        ([], { min_temp := 5, max_temp := 5, sum_temp := 5, n := 1 })] ∧
      parallelRunWith 4 [107, 59, 49, 10, 53, 10] =
        .error .panicSliceRange := by
  constructor
  · decide
  · decide

/-- C9 (amended): on inputs all of whose lines are well-formed records, any
two chunk sizes make the parallel pipeline succeed with per-key identical
statistics (exactly, since temperatures are modelled as rationals — over
`f64`, `min`/`max`/`count` are bit-exact and only the summation order of
`sum` varies). -/
theorem c9_determinism_amended (S1 S2 : Nat) (ls : List (List Nat))
    (t : Bool) (hwf : ∀ l ∈ ls, WFline l) :
    ∃ m1 m2, parallelRunWith S1 (joinLines ls t) = .ok m1 ∧
      parallelRunWith S2 (joinLines ls t) = .ok m2 ∧
      ∀ key, lookupStation m1 key = lookupStation m2 key := by
  obtain ⟨m1, h1, _, hl1⟩ := parallelRun_wf S1 ls t hwf
  obtain ⟨m2, h2, _, hl2⟩ := parallelRun_wf S2 ls t hwf
  exact ⟨m1, m2, h1, h2, fun key => by rw [hl1 key, hl2 key]⟩

theorem c9_determinism_amended_witness :
    (∀ l ∈ [[98, 59, 50]], WFline l) ∧
      ∃ m1 m2, parallelRunWith 1 (joinLines [[98, 59, 50]] true) = .ok m1 ∧
        parallelRunWith 2 (joinLines [[98, 59, 50]] true) = .ok m2 ∧
        ∀ key, lookupStation m1 key = lookupStation m2 key := by
  have hwf : ∀ l ∈ [[98, 59, 50]], WFline l := by
    intro l hl
    rw [List.mem_singleton] at hl
    subst hl
    exact ⟨[98], [50], 2, rfl, by decide, by decide, by decide⟩
  exact ⟨hwf, c9_determinism_amended 1 2 [[98, 59, 50]] true hwf⟩

/-- With an unparseable temperature span, `process_record` always fails
(with a parse panic, or earlier with a range or UTF-8 panic). -/
theorem process_record_fails {data : List Nat} {m : AggMap}
    {ss se ts te : Nat} (hparse : parseF64 (sub data ts te) = none) :
    ∃ e, process_record data m ss se ts te = .error e := by
  unfold process_record
  by_cases h1 : ss ≤ se ∧ se ≤ data.length
  · rw [if_pos h1]
    by_cases h2 : validUtf8 (sub data ss se) = true
    · rw [if_pos h2]
      by_cases h3 : ts ≤ te ∧ te ≤ data.length
      · rw [if_pos h3]
        by_cases h4 : validUtf8 (sub data ts te) = true
        · rw [if_pos h4, hparse]
          exact ⟨.panicParse, rfl⟩
        · rw [if_neg h4]
          exact ⟨.panicUtf8, rfl⟩
      · rw [if_neg h3]
        exact ⟨.panicSliceRange, rfl⟩
    · rw [if_neg h2]
      exact ⟨.panicUtf8, rfl⟩
  · rw [if_neg h1]
    exact ⟨.panicSliceRange, rfl⟩

/-- Scanning a terminated record whose value bytes do not parse: the
scanner reaches the record's terminator and fails there. -/
theorem scanLoop_bad_record (pre post k w : List Nat) (se ts : Nat)
    (m : AggMap) (hk : ∀ b ∈ k, b ≠ 59 ∧ b ≠ 10)
    (hw : ∀ b ∈ w, b ≠ 10 ∧ b ≠ 59) (hparse : parseF64 w = none) :
    ∃ e, scanLoop (pre ++ (k ++ 59 :: w) ++ 10 :: post) pre.length
        pre.length se ts m = .error e := by
  have hform1 : pre ++ (k ++ 59 :: w) ++ 10 :: post =
      pre ++ k ++ (59 :: (w ++ 10 :: post)) := by simp
  have hform2 : pre ++ (k ++ 59 :: w) ++ 10 :: post =
      (pre ++ k ++ [59]) ++ w ++ (10 :: post) := by simp
  have hform3 : pre ++ (k ++ 59 :: w) ++ 10 :: post =
      (pre ++ k ++ [59] ++ w) ++ 10 :: post := by simp
  have hlen : (pre ++ (k ++ 59 :: w) ++ 10 :: post).length =
      pre.length + k.length + 1 + w.length + 1 + post.length := by
    simp only [List.length_append, List.length_cons]
    omega
  have step1 :
      scanLoop (pre ++ (k ++ 59 :: w) ++ 10 :: post) pre.length pre.length se
        ts m =
      scanLoop (pre ++ (k ++ 59 :: w) ++ 10 :: post)
        (pre.length + k.length) pre.length se ts m := by
    conv_lhs => rw [hform1]
    rw [scanLoop_skip_run k pre (59 :: (w ++ 10 :: post)) pre.length se ts m
      (fun b hb => ⟨(hk b hb).2, (hk b hb).1⟩)]
    rw [← hform1]
  have hd59 : (pre ++ (k ++ 59 :: w) ++ 10 :: post).getD
      (pre.length + k.length) 0 = 59 := by
    conv_lhs => rw [hform1]
    have h : pre.length + k.length = (pre ++ k).length := by
      simp only [List.length_append]
    rw [h]
    exact getD_middle (pre ++ k) 59 (w ++ 10 :: post)
  have step2 :
      scanLoop (pre ++ (k ++ 59 :: w) ++ 10 :: post)
        (pre.length + k.length) pre.length se ts m =
      scanLoop (pre ++ (k ++ 59 :: w) ++ 10 :: post)
        (pre.length + k.length + 1) pre.length (pre.length + k.length)
        (pre.length + k.length + 1) m :=
    scanLoop_delim (by omega) hd59
  have step3 :
      scanLoop (pre ++ (k ++ 59 :: w) ++ 10 :: post)
        (pre.length + k.length + 1) pre.length (pre.length + k.length)
        (pre.length + k.length + 1) m =
      scanLoop (pre ++ (k ++ 59 :: w) ++ 10 :: post)
        (pre.length + k.length + 1 + w.length) pre.length
        (pre.length + k.length) (pre.length + k.length + 1) m := by
    conv_lhs => rw [hform2]
    have hidx : pre.length + k.length + 1 = (pre ++ k ++ [59]).length := by
      simp only [List.length_append, List.length_cons, List.length_nil]
    rw [hidx, scanLoop_skip_run w (pre ++ k ++ [59]) (10 :: post) _ _ _ m hw,
      ← hform2, ← hidx]
  have hd10 : (pre ++ (k ++ 59 :: w) ++ 10 :: post).getD
      (pre.length + k.length + 1 + w.length) 0 = 10 := by
    conv_lhs => rw [hform3]
    have h : pre.length + k.length + 1 + w.length =
        (pre ++ k ++ [59] ++ w).length := by
      simp only [List.length_append, List.length_cons, List.length_nil]
      try omega
    rw [h]
    exact getD_middle _ 10 post
  have htemp : sub (pre ++ (k ++ 59 :: w) ++ 10 :: post)
      (pre.length + k.length + 1) (pre.length + k.length + 1 + w.length) =
      w := by
    conv_lhs => rw [hform2]
    have h1 : pre.length + k.length + 1 = (pre ++ k ++ [59]).length := by
      simp only [List.length_append, List.length_cons, List.length_nil]
    have h2 : pre.length + k.length + 1 + w.length =
        (pre ++ k ++ [59]).length + w.length := by
      simp only [List.length_append, List.length_cons, List.length_nil]
    rw [h2, h1]
    exact sub_middle (pre ++ k ++ [59]) w (10 :: post)
  obtain ⟨e, hpr⟩ := @process_record_fails
    (pre ++ (k ++ 59 :: w) ++ 10 :: post) m pre.length
    (pre.length + k.length) (pre.length + k.length + 1)
    (pre.length + k.length + 1 + w.length)
    (by rw [htemp]; exact hparse)
  refine ⟨e, ?_⟩
  rw [step1, step2, step3, scanLoop_newline (by omega) hd10, hpr]

/-- Scanning well-formed lines followed by more data: the lines are folded
in and the scan proceeds from the end of the line block. -/
theorem scan_lines_prefix :
    ∀ (ls' : List (List Nat)) (pre post : List Nat) (se ts : Nat)
      (m : AggMap), (∀ l ∈ ls', WFline l) →
      ∃ se' ts',
        scanLoop (pre ++ (joinLines ls' true ++ post)) pre.length pre.length
            se ts m =
          scanLoop (pre ++ (joinLines ls' true ++ post))
            (pre.length + (joinLines ls' true).length)
            (pre.length + (joinLines ls' true).length) se' ts'
            (ls'.foldl insertLine m) := by
  intro ls'
  induction ls' with
  | nil =>
    intro pre post se ts m _
    refine ⟨se, ts, ?_⟩
    rw [show joinLines [] true = [] from rfl]
    simp
  | cons x rest ih =>
    intro pre post se ts m hwf
    obtain ⟨kx, vx, qx, hx, hkx, hutfx, hparsex⟩ :=
      hwf x (List.mem_cons_self _ _)
    subst hx
    rw [joinLines_cons_true]
    have hform : pre ++ (((kx ++ 59 :: vx) ++ 10 :: joinLines rest true)
        ++ post) =
        pre ++ (kx ++ 59 :: vx) ++ 10 :: (joinLines rest true ++ post) := by
      simp
    rw [hform, scanLoop_record pre (joinLines rest true ++ post) kx vx qx se
      ts m hkx hutfx hparsex]
    have hidx : pre.length + kx.length + 1 + vx.length + 1 =
        (pre ++ (kx ++ 59 :: vx) ++ [10]).length := by
      simp only [List.length_append, List.length_cons, List.length_nil]
      omega
    have hform2 : pre ++ (kx ++ 59 :: vx) ++ 10 :: (joinLines rest true ++
        post) =
        (pre ++ (kx ++ 59 :: vx) ++ [10]) ++ (joinLines rest true ++ post)
        := by simp
    obtain ⟨se', ts', hrec⟩ := ih (pre ++ (kx ++ 59 :: vx) ++ [10]) post
      (pre.length + kx.length) (pre.length + kx.length + 1)
      (entryUpdate m kx (fun e => combineVal e qx) (singleStats qx))
      (fun l' hl' => hwf l' (List.mem_cons_of_mem _ hl'))
    refine ⟨se', ts', ?_⟩
    rw [hidx, hform2, hrec, List.foldl_cons,
      insertLine_parts m (fun b hb => (hkx b hb).1) hparsex]
    have hL : (pre ++ (kx ++ 59 :: vx) ++ [10]).length +
        (joinLines rest true).length =
        pre.length + ((kx ++ 59 :: vx) ++ 10 :: joinLines rest true).length
        := by
      simp only [List.length_append, List.length_cons, List.length_nil]
      omega
    rw [hL]

/-- A chunk of well-formed lines followed by a terminated record with an
unparseable value fails. -/
theorem read_slice_bad_nl (ls' : List (List Nat)) (k w : List Nat)
    (hwf : ∀ l ∈ ls', WFline l) (hk : ∀ b ∈ k, b ≠ 59 ∧ b ≠ 10)
    (hw : ∀ b ∈ w, b ≠ 10 ∧ b ≠ 59) (hparse : parseF64 w = none) :
    ∃ e, read_stations_data_slice
      (joinLines (ls' ++ [k ++ 59 :: w]) true) = .error e := by
  have hne : ls' ++ [k ++ 59 :: w] ≠ [] := by simp
  have hdata : joinLines (ls' ++ [k ++ 59 :: w]) true =
      joinLines ls' true ++ ((k ++ 59 :: w) ++ [10]) := by
    rw [joinLines_true_eq _ hne, joinLines_append_last]
    simp
  obtain ⟨se', ts', hpre⟩ := scan_lines_prefix ls' []
    ((k ++ 59 :: w) ++ [10]) 0 0 [] hwf
  rw [List.nil_append, show ([] : List Nat).length = 0 from rfl] at hpre
  simp only [Nat.zero_add] at hpre
  have hform : joinLines ls' true ++ ((k ++ 59 :: w) ++ [10]) =
      joinLines ls' true ++ (k ++ 59 :: w) ++ 10 :: [] := by simp
  obtain ⟨e, hbad⟩ := scanLoop_bad_record (joinLines ls' true) [] k w se'
    ts' (ls'.foldl insertLine []) hk hw hparse
  refine ⟨e, ?_⟩
  rw [hdata]
  unfold read_stations_data_slice
  rw [hpre, hform, hbad]

/-- A chunk of well-formed lines whose final, unterminated record has an
unparseable value fails. -/
theorem scan_lines_tail_any :
    ∀ (ls' : List (List Nat)) (k w : List Nat) (pre : List Nat)
      (se ts : Nat) (m : AggMap),
      (∀ l ∈ ls', WFline l) →
      (∀ b ∈ k, b ≠ 59 ∧ b ≠ 10) →
      (∀ b ∈ w, b ≠ 10 ∧ b ≠ 59) →
      scanLoop (pre ++ joinLines (ls' ++ [k ++ 59 :: w]) false) pre.length
          pre.length se ts m =
        .ok (ls'.foldl insertLine m,
          pre.length + (joinLines ls' true).length,
          pre.length + (joinLines ls' true).length + k.length,
          pre.length + (joinLines ls' true).length + k.length + 1) := by
  intro ls'
  induction ls' with
  | nil =>
    intro k w pre se ts m _ hk hw
    rw [show joinLines ([] ++ [k ++ 59 :: w]) false = k ++ 59 :: w from
        by simp [joinLines],
      scanLoop_tail pre k w se ts m hk hw]
    rw [show joinLines [] true = [] from rfl]
    rw [List.foldl_nil]
    simp
  | cons x rest ih =>
    intro k w pre se ts m hwf hk hw
    obtain ⟨kx, vx, qx, hx, hkx, hutfx, hparsex⟩ :=
      hwf x (List.mem_cons_self _ _)
    subst hx
    rw [List.cons_append,
      joinLines_cons_ne _ _ false (by simp)]
    have hform : pre ++ ((kx ++ 59 :: vx) ++
        10 :: joinLines (rest ++ [k ++ 59 :: w]) false) =
        pre ++ (kx ++ 59 :: vx) ++
          10 :: joinLines (rest ++ [k ++ 59 :: w]) false := by simp
    rw [hform, scanLoop_record pre (joinLines (rest ++ [k ++ 59 :: w]) false)
      kx vx qx se ts m hkx hutfx hparsex]
    have hidx : pre.length + kx.length + 1 + vx.length + 1 =
        (pre ++ (kx ++ 59 :: vx) ++ [10]).length := by
      simp only [List.length_append, List.length_cons, List.length_nil]
      omega
    have hform2 : pre ++ (kx ++ 59 :: vx) ++
        10 :: joinLines (rest ++ [k ++ 59 :: w]) false =
        (pre ++ (kx ++ 59 :: vx) ++ [10]) ++
          joinLines (rest ++ [k ++ 59 :: w]) false := by simp
    rw [hidx, hform2,
      ih k w (pre ++ (kx ++ 59 :: vx) ++ [10])
        (pre.length + kx.length) (pre.length + kx.length + 1)
        (entryUpdate m kx (fun e => combineVal e qx) (singleStats qx))
        (fun l' hl' => hwf l' (List.mem_cons_of_mem _ hl')) hk hw,
      List.foldl_cons,
      insertLine_parts m (fun b hb => (hkx b hb).1) hparsex]
    have hL : (pre ++ (kx ++ 59 :: vx) ++ [10]).length +
        (joinLines rest true).length =
        pre.length + (joinLines ((kx ++ 59 :: vx) :: rest) true).length := by
      rw [joinLines_cons_true]
      simp only [List.length_append, List.length_cons, List.length_nil]
      omega
    rw [hL]

theorem read_slice_bad_tail (ls' : List (List Nat)) (k w : List Nat)
    (hwf : ∀ l ∈ ls', WFline l) (hk : ∀ b ∈ k, b ≠ 59 ∧ b ≠ 10)
    (hw : ∀ b ∈ w, b ≠ 10 ∧ b ≠ 59) (hparse : parseF64 w = none) :
    ∃ e, read_stations_data_slice
      (joinLines (ls' ++ [k ++ 59 :: w]) false) = .error e := by
  have hscan := scan_lines_tail_any ls' k w [] 0 0 [] hwf hk hw
  rw [List.nil_append, show ([] : List Nat).length = 0 from rfl] at hscan
  simp only [Nat.zero_add] at hscan
  have hJ : joinLines (ls' ++ [k ++ 59 :: w]) false =
      joinLines ls' true ++ (k ++ 59 :: w) :=
    joinLines_append_last _ _
  have hlen : (joinLines (ls' ++ [k ++ 59 :: w]) false).length =
      (joinLines ls' true).length + k.length + 1 + w.length := by
    rw [hJ]
    simp only [List.length_append, List.length_cons]
    omega
  have hlast : (joinLines (ls' ++ [k ++ 59 :: w]) false).getD
      ((joinLines (ls' ++ [k ++ 59 :: w]) false).length - 1) 0 ≠ 10 := by
    cases hwcase : w.reverse with
    | nil =>
      have hwnil : w = [] := by
        have := congrArg List.reverse hwcase
        rw [List.reverse_reverse] at this
        exact this
      subst hwnil
      rw [hJ]
      have hform : joinLines ls' true ++ (k ++ 59 :: []) =
          (joinLines ls' true ++ k) ++ 59 :: [] := by simp
      have hidx : (joinLines ls' true ++ (k ++ 59 :: [])).length - 1 =
          (joinLines ls' true ++ k).length := by
        simp only [List.length_append, List.length_cons, List.length_nil]
        omega
      rw [hidx, hform, getD_middle _ 59 []]
      omega
    | cons b wrest =>
      have hwdec : w = wrest.reverse ++ [b] := by
        have := congrArg List.reverse hwcase
        rw [List.reverse_reverse] at this
        rw [this, List.reverse_cons]
      have hb : b ≠ 10 := by
        refine (hw b ?_).1
        rw [hwdec]
        simp
      rw [hJ, hwdec]
      have hform : joinLines ls' true ++ (k ++ 59 :: (wrest.reverse ++ [b]))
          = (joinLines ls' true ++ k ++ 59 :: wrest.reverse) ++ b :: [] := by
        simp
      have hidx : (joinLines ls' true ++
          (k ++ 59 :: (wrest.reverse ++ [b]))).length - 1 =
          (joinLines ls' true ++ k ++ 59 :: wrest.reverse).length := by
        simp only [List.length_append, List.length_cons, List.length_nil]
        omega
      rw [hidx, hform, getD_middle _ b []]
      exact hb
  have htemp : sub (joinLines (ls' ++ [k ++ 59 :: w]) false)
      ((joinLines ls' true).length + k.length + 1)
      (joinLines (ls' ++ [k ++ 59 :: w]) false).length = w := by
    rw [hJ]
    have hform : joinLines ls' true ++ (k ++ 59 :: w) =
        (joinLines ls' true ++ k ++ [59]) ++ w ++ [] := by simp
    have hidx1 : (joinLines ls' true).length + k.length + 1 =
        (joinLines ls' true ++ k ++ [59]).length := by
      simp only [List.length_append, List.length_cons, List.length_nil]
    have hidx2 : (joinLines ls' true ++ (k ++ 59 :: w)).length =
        (joinLines ls' true ++ k ++ [59]).length + w.length := by
      simp only [List.length_append, List.length_cons, List.length_nil]
      omega
    rw [hidx2, hidx1, hform]
    exact sub_middle _ w []
  obtain ⟨e, hpr⟩ := @process_record_fails
    (joinLines (ls' ++ [k ++ 59 :: w]) false) (ls'.foldl insertLine [])
    (joinLines ls' true).length
    ((joinLines ls' true).length + k.length)
    ((joinLines ls' true).length + k.length + 1)
    (joinLines (ls' ++ [k ++ 59 :: w]) false).length
    (by rw [htemp]; exact hparse)
  refine ⟨e, ?_⟩
  unfold read_stations_data_slice
  rw [hscan]
  dsimp only
  rw [if_pos (by rw [hlen]; omega), if_neg hlast, hpr]

/-- On an input whose lines are well-formed except the last one, which has
one delimiter and an unparseable value, the parallel pipeline fails at
every chunk size. -/
theorem parallelRun_err (S : Nat) :
    ∀ (ls1 : List (List Nat)) (k w : List Nat) (t : Bool),
      (∀ l ∈ ls1, WFline l) →
      (∀ b ∈ k, b ≠ 59 ∧ b ≠ 10) →
      (∀ b ∈ w, b ≠ 10 ∧ b ≠ 59) →
      parseF64 w = none →
      ∃ e, parallelRunWith S (joinLines (ls1 ++ [k ++ 59 :: w]) t) =
        .error e := by
  suffices H : ∀ n (ls1 : List (List Nat)), ls1.length < n →
      ∀ (k w : List Nat) (t : Bool),
      (∀ l ∈ ls1, WFline l) →
      (∀ b ∈ k, b ≠ 59 ∧ b ≠ 10) →
      (∀ b ∈ w, b ≠ 10 ∧ b ≠ 59) →
      parseF64 w = none →
      ∃ e, parallelRunWith S (joinLines (ls1 ++ [k ++ 59 :: w]) t) =
        .error e from
    fun ls1 k w t h1 h2 h3 h4 =>
      H (ls1.length + 1) ls1 (by omega) k w t h1 h2 h3 h4
  intro n
  induction n with
  | zero =>
    intro ls1 hlen
    omega
  | succ n ih =>
    intro ls1 hlen k w t hwf hk hw hparse
    have hne : ls1 ++ [k ++ 59 :: w] ≠ [] := by simp
    have hno : ∀ l ∈ ls1 ++ [k ++ 59 :: w], ∀ b ∈ l, b ≠ 10 := by
      intro l hl b hb
      rw [List.mem_append, List.mem_singleton] at hl
      rcases hl with hl | rfl
      · exact WFline_no_nl (hwf l hl) b hb
      · rw [List.mem_append, List.mem_cons] at hb
        rcases hb with hb | hb | hb
        · exact (hk b hb).2
        · subst hb; omega
        · exact (hw b hb).1
    have hlne : ∀ l ∈ ls1 ++ [k ++ 59 :: w], l ≠ [] := by
      intro l hl
      rw [List.mem_append, List.mem_singleton] at hl
      rcases hl with hl | rfl
      · exact WFline_ne_nil (hwf l hl)
      · simp
    have hLpos := joinLines_length_pos _ t hne hlne
    obtain ⟨c, hc⟩ : ∃ c,
        findSliceEnd (joinLines (ls1 ++ [k ++ 59 :: w]) t) (0 + S) = c :=
      ⟨_, rfl⟩
    have hsl := sliceLoop_eq S (joinLines (ls1 ++ [k ++ 59 :: w]) t) 0
    rw [if_pos hLpos, hc] at hsl
    by_cases he : c < (joinLines (ls1 ++ [k ++ 59 :: w]) t).length
    · rw [if_pos he] at hsl
      have h10 : (joinLines (ls1 ++ [k ++ 59 :: w]) t).getD c 0 = 10 := by
        rw [← hc]
        exact findSliceEnd_newline _ _ (by rw [hc]; exact he)
      obtain ⟨lsA, lsB, hsplit, hneA, hjoin, hlenA⟩ :=
        newline_split _ t c hno he h10
      have hJF : joinLines lsA true = joinLines lsA false ++ [10] :=
        joinLines_true_eq lsA hneA
      have hcJF : (joinLines lsA false).length = c := by
        rw [hJF] at hlenA
        simp only [List.length_append, List.length_cons, List.length_nil]
          at hlenA
        omega
      have hdata2 : joinLines (ls1 ++ [k ++ 59 :: w]) t =
          joinLines lsA false ++ (10 :: joinLines lsB t) := by
        rw [hjoin, hJF]
        simp
      have hsub1 : sub (joinLines (ls1 ++ [k ++ 59 :: w]) t) 0 c =
          joinLines lsA false := by
        rw [sub, List.drop_zero, Nat.sub_zero, hdata2, ← hcJF]
        exact List.take_left _ _
      cases hB : lsB with
      | nil =>
        subst hB
        rw [List.append_nil] at hsplit
        obtain ⟨e, hbad⟩ :=
          read_slice_bad_tail ls1 k w hwf hk hw hparse
        refine ⟨e, ?_⟩
        unfold parallelRunWith
        rw [hsl, mapExcept_cons]
        dsimp only
        rw [show read_stations_data_slice
            (sub (joinLines (ls1 ++ [k ++ 59 :: w]) t) 0 c) = .error e from
          by rw [hsub1, ← hsplit]; exact hbad]
      | cons b2 lsB' =>
        have hBne : lsB ≠ [] := by rw [hB]; simp
        obtain ⟨ls1b, hls1, hlsB⟩ : ∃ ls1b, ls1 = lsA ++ ls1b ∧
            lsB = ls1b ++ [k ++ 59 :: w] := by
          rcases List.append_eq_append_iff.mp hsplit with
            ⟨a', ha1, ha2⟩ | ⟨c', hc1, hc2⟩
          · cases a' with
            | nil =>
              rw [List.append_nil] at ha1
              refine ⟨[], by rw [ha1, List.append_nil], ?_⟩
              rw [List.nil_append]
              rw [List.nil_append] at ha2
              exact ha2.symm
            | cons x xs =>
              exfalso
              rw [List.cons_append] at ha2
              rw [List.cons.injEq] at ha2
              have := ha2.2
              have hxe : xs = [] ∧ lsB = [] := by
                constructor
                · cases xs with
                  | nil => rfl
                  | cons y ys => simp at this
                · cases xs with
                  | nil => rw [List.nil_append] at this; exact this.symm
                  | cons y ys => simp at this
              exact hBne hxe.2
          · exact ⟨c', hc1, hc2⟩
        have hwfA : ∀ l ∈ lsA, WFline l := fun l hl =>
          hwf l (by rw [hls1]; exact List.mem_append_left _ hl)
        have hwfB : ∀ l ∈ ls1b, WFline l := fun l hl =>
          hwf l (by rw [hls1]; exact List.mem_append_right _ hl)
        have hread1 : read_stations_data_slice
            (sub (joinLines (ls1 ++ [k ++ 59 :: w]) t) 0 c) =
            .ok (lsA.foldl insertLine []) := by
          rw [hsub1]
          exact read_slice_join lsA false hneA hwfA
        have hshift : sliceLoop S (joinLines (ls1 ++ [k ++ 59 :: w]) t)
            (c + 1) =
            (sliceLoop S (joinLines lsB t) 0).map
              (fun r => ((joinLines lsA true).length + r.1,
                (joinLines lsA true).length + r.2)) := by
          have hc1 : c + 1 = (joinLines lsA true).length + 0 := by omega
          rw [hjoin, hc1]
          exact sliceLoop_shift S _ _ 0
        have hlenb : ls1b.length < n := by
          have hlA := List.length_pos.mpr hneA
          have hlsum := congrArg List.length hls1
          rw [List.length_append] at hlsum
          omega
        obtain ⟨e, hrunB⟩ := ih ls1b hlenb k w t hwfB hk hw hparse
        cases hms2 : mapExcept
            (fun r => read_stations_data_slice
              (sub (joinLines (ls1b ++ [k ++ 59 :: w]) t) r.1 r.2))
            (sliceLoop S (joinLines (ls1b ++ [k ++ 59 :: w]) t) 0) with
        | ok ms2 =>
          unfold parallelRunWith at hrunB
          rw [hms2] at hrunB
          exact absurd hrunB (by simp)
        | error e2 =>
          refine ⟨e2, ?_⟩
          have hmap2 : mapExcept
              (fun r => read_stations_data_slice
                (sub (joinLines (ls1 ++ [k ++ 59 :: w]) t) r.1 r.2))
              (sliceLoop S (joinLines (ls1 ++ [k ++ 59 :: w]) t) (c + 1)) =
              .error e2 := by
            rw [hshift, hjoin, hlsB, mapExcept_shift]
            exact hms2
          unfold parallelRunWith
          rw [hsl, mapExcept_cons]
          dsimp only
          rw [hread1, hmap2]
    · rw [if_neg he] at hsl
      have hbad : ∃ e, read_stations_data_slice
          (joinLines (ls1 ++ [k ++ 59 :: w]) t) = .error e := by
        cases t with
        | false => exact read_slice_bad_tail ls1 k w hwf hk hw hparse
        | true => exact read_slice_bad_nl ls1 k w hwf hk hw hparse
      obtain ⟨e, hbad⟩ := hbad
      refine ⟨e, ?_⟩
      unfold parallelRunWith
      rw [hsl, mapExcept_cons]
      dsimp only
      rw [show read_stations_data_slice
          (sub (joinLines (ls1 ++ [k ++ 59 :: w]) t) 0
            (joinLines (ls1 ++ [k ++ 59 :: w]) t).length) = .error e from
        by rw [sub_all]; exact hbad]

/-- C5 counterexample: the input `"a;b;1\n"` contains the record `a;b;1`
whose value bytes — the bytes after the (first) delimiter, `b;1` — are not
a valid decimal number, yet the parallel run does not fail: the scanner
keys the record by the bytes before the *last* delimiter and happily
parses `1`, silently mis-aggregating instead of reporting an error. -/
theorem c5_format_error_counterexample :
    lineVal [97, 59, 98, 59, 49] = [98, 59, 49] ∧
      parseF64 [98, 59, 49] = none ∧
      parallel_memory_mapped [97, 59, 98, 59, 49, 10] =
        .ok [([97, 59, 98],
          { min_temp := 1, max_temp := 1, sum_temp := 1, n := 1 })] :=
  ⟨by decide, by decide, by decide⟩

/-- C5 (amended): for a record with exactly one delimiter and an
unparseable value, in any otherwise well-formed input and at any position
of the chunking, the parallel run does fail — as a slicing/UTF-8/parse
panic that aborts the run (the code has no typed `FormatError`), not by
silently omitting the record. -/
theorem c5_format_error_amended (ls1 : List (List Nat)) (k w : List Nat)
    (t : Bool) (hwf : ∀ l ∈ ls1, WFline l)
    (hk : ∀ b ∈ k, b ≠ 59 ∧ b ≠ 10)
    (hw : ∀ b ∈ w, b ≠ 10 ∧ b ≠ 59)
    (hparse : parseF64 w = none) :
    ∃ e, parallel_memory_mapped (joinLines (ls1 ++ [k ++ 59 :: w]) t) =
      .error e :=
  parallelRun_err SLICE_SIZE ls1 k w t hwf hk hw hparse

theorem c5_format_error_amended_witness :
    (∀ l ∈ [[97, 59, 49]], WFline l) ∧
      (∀ b ∈ [98], b ≠ 59 ∧ b ≠ 10) ∧
      (∀ b ∈ [120, 121], b ≠ 10 ∧ b ≠ 59) ∧
      parseF64 [120, 121] = none ∧
      ∃ e, parallel_memory_mapped
          (joinLines ([[97, 59, 49]] ++ [[98] ++ 59 :: [120, 121]]) true) =
        .error e := by
  have hwf : ∀ l ∈ [[97, 59, 49]], WFline l := by
    intro l hl
    rw [List.mem_singleton] at hl
    subst hl
    exact ⟨[97], [49], 1, rfl, by decide, by decide, by decide⟩
  exact ⟨hwf, by decide, by decide, by decide,
    c5_format_error_amended [[97, 59, 49]] [98] [120, 121] true hwf
      (by decide) (by decide) (by decide)⟩

end OneBrc
